import Mathlib

/-!
# terraform-helm-digests: model of `main.go` and properties of its components

The Go program is embedded function by function. External effects (helm, reg, docker, aws,
file writes) are parameters of the model; `log.Fatal`, `os.Exit` and run-time panics are
values of `Abort`.
-/

namespace HelmDigests

deriving instance DecidableEq for Except

/-! ## Data model -/

/-- Ways a run ends without returning to its caller. -/
inductive Abort where
  /-- The run printed `logged` with `log.Print` and then called `log.Fatal()`. -/
  | fatal (logged : String)
  /-- An external command or file operation named `what` failed: `log.Fatal(err)`. -/
  | failed (what : String)
  /-- A Go run-time panic. -/
  | panic (what : String)
  /-- The call `os.Exit(code)`. -/
  | exit (code : Nat)
deriving DecidableEq, Repr

structure Chart where
  Name : String
  Repo : String
  Url : String
  Version : String
  OldVersion : String
deriving DecidableEq, Repr

/-- One entry of the chart file: the fields of `Chart` that carry a YAML key. -/
structure ChartRecord where
  name : String
  repo : String
  url : String
  version : String
deriving DecidableEq, Repr

structure Repo where
  Version : String
deriving DecidableEq, Repr

structure Platform where
  Architecture : String
  OS : String
  Variant : String
deriving DecidableEq, Repr

structure Manifest where
  Digest : String
  MediaType : String
  Platform : Platform
deriving DecidableEq, Repr

structure V2Response where
  Manifests : List Manifest
deriving DecidableEq, Repr

structure Digests where
  Amd64 : String
  Arm64 : String
deriving DecidableEq, Repr

structure Image where
  Registry : String
  Name : String
  RawName : String
  Digests : Digests
deriving DecidableEq, Repr

/-! ## Go string helpers -/

/-- Go `strings.Contains` on the characters of the two strings. -/
def containsChars : List Char → List Char → Bool
  | [], substr => substr.isEmpty
  | c :: cs, substr => substr.isPrefixOf (c :: cs) || containsChars cs substr

def stringsContains (s substr : String) : Bool := containsChars s.toList substr.toList

/-- Go `strings.Split` for a one-character separator. -/
def splitChars (sep : Char) : List Char → List (List Char)
  | [] => [[]]
  | c :: cs =>
    if c = sep then [] :: splitChars sep cs
    else
      match splitChars sep cs with
      | w :: ws => (c :: w) :: ws
      | [] => [[c]]

def stringsSplit (s : String) (sep : Char) : List String :=
  (splitChars sep s.toList).map String.mk

/-- Go slice expression `s[:n]`. The sliced strings of this program end in two one-byte
characters, so counting characters agrees with counting bytes. -/
def sliceTo (s : String) (n : Nat) : String := ⟨s.data.take n⟩

/-- The double quote character. -/
def dquote : Char := Char.ofNat 34

/-! ## updateCharts -/

/-- What `yaml.Marshal` writes for a chart: `OldVersion` is tagged `yaml:"-"` and left out. -/
def Chart.toRecord (c : Chart) : ChartRecord := ⟨c.Name, c.Repo, c.Url, c.Version⟩

/-- The part of `github.com/hashicorp/go-version` that `updateCharts` calls. `NewVersion` is
`none` where the library returns a nil version and an error; `Original` gives back the string
a version was parsed from. -/
structure VersionLib where
  Version : Type
  NewVersion : String → Option Version
  LessThan : Version → Version → Bool
  Original : Version → String

/-- External effects of `updateCharts`: `run i cmd` tells whether the `helm repo` command `cmd`
issued for the chart at index `i` succeeds, `search i cmd` is the decoded output of its
`helm search repo` command (`none` when the command fails), `writeFile` tells whether writing
the chart file succeeds. -/
structure HelmTools where
  run : Nat → String → Bool
  search : Nat → String → Option (List Repo)
  writeFile : List ChartRecord → Bool

def repoAddCommand (chart : Chart) : String := "helm repo add " ++ chart.Repo ++ " " ++ chart.Url

def repoUpdateCommand (chart : Chart) : String := "helm repo update " ++ chart.Repo

def searchCommand (chart : Chart) : String :=
  "helm search repo " ++ chart.Repo ++ "/" ++ chart.Name ++ " -l -o yaml"

/-- Variables of `updateCharts` that its loop changes; `charts` holds the entries visited so
far, as they stand in the slice after the visit. -/
structure UpdateState where
  charts : List Chart
  updatedCharts : List Chart
  updates : Bool

/-- Loop `for i, chart := range charts` of `updateCharts`, from index `i` on. A version that
does not parse leaves a nil pointer, which `LessThan` dereferences. -/
def updateLoop (lib : VersionLib) (helm : HelmTools) :
    Nat → List Chart → UpdateState → Except Abort UpdateState
  | _, [], st => .ok st
  | i, chart :: rest, st =>
    if !helm.run i (repoAddCommand chart) then .error (.failed (repoAddCommand chart))
    else if !helm.run i (repoUpdateCommand chart) then .error (.failed (repoUpdateCommand chart))
    else
      match helm.search i (searchCommand chart) with
      | none => .error (.failed (searchCommand chart))
      | some [] => .error (.panic "index out of range")
      | some (repo0 :: _) =>
        match lib.NewVersion chart.Version, lib.NewVersion repo0.Version with
        | some currentVersion, some latestVersion =>
          if lib.LessThan currentVersion latestVersion then
            let chart1 := { chart with
              OldVersion := lib.Original currentVersion, Version := lib.Original latestVersion }
            updateLoop lib helm (i + 1) rest
              ⟨st.charts ++ [chart1], st.updatedCharts ++ [chart1], true⟩
          else
            updateLoop lib helm (i + 1) rest ⟨st.charts ++ [chart], st.updatedCharts, st.updates⟩
        | _, _ => .error (.panic "nil pointer dereference")

/-- The function `updateCharts` on the chart list read from the chart file; on success it yields
the records written to the chart file and the returned `updatedCharts`. -/
def updateCharts (lib : VersionLib) (helm : HelmTools) (noWrite : String) (charts : List Chart) :
    Except Abort (List ChartRecord × List Chart) :=
  match updateLoop lib helm 0 charts ⟨[], [], false⟩ with
  | .error e => .error e
  | .ok st =>
    if !st.updates then .error (.exit 0)
    else if noWrite.length > 0 then .error (.exit 0)
    else if helm.writeFile (st.charts.map Chart.toRecord) then
      .ok (st.charts.map Chart.toRecord, st.updatedCharts)
    else .error (.failed "write chart file")

/-- Latest published version of the chart at index `i`: the first entry of its search result. -/
def latestOf (helm : HelmTools) (i : Nat) (chart : Chart) : String :=
  match helm.search i (searchCommand chart) with
  | some (repo0 :: _) => repo0.Version
  | _ => ""

/-- Whether the current version of the chart at index `i` is strictly below its latest one. -/
def isNewer (lib : VersionLib) (helm : HelmTools) (i : Nat) (chart : Chart) : Bool :=
  match lib.NewVersion chart.Version, lib.NewVersion (latestOf helm i chart) with
  | some currentVersion, some latestVersion => lib.LessThan currentVersion latestVersion
  | _, _ => false

/-- The chart at index `i` after its version was replaced by the latest one. -/
def bumped (helm : HelmTools) (i : Nat) (chart : Chart) : Chart :=
  { chart with OldVersion := chart.Version, Version := latestOf helm i chart }

/-- Version of the sample instance of `VersionLib`: dot-separated decimal numbers. -/
structure DottedVersion where
  segments : List Nat
  original : String
deriving DecidableEq, Repr

def parseDigits (cs : List Char) : Option Nat :=
  if cs ≠ [] ∧ cs.all Char.isDigit then
    some (cs.foldl (fun n c => 10 * n + (c.toNat - 48)) 0)
  else none

def parseDotted (s : String) : Option DottedVersion :=
  ((splitChars '.' s.toList).mapM parseDigits).map (fun segments => ⟨segments, s⟩)

def segmentsLt : List Nat → List Nat → Bool
  | [], [] => false
  | [], _ :: _ => true
  | _ :: _, [] => false
  | a :: as, b :: bs => decide (a < b) || (decide (a = b) && segmentsLt as bs)

/-- A small instance of the version library interface, used for closed examples. -/
def dottedLib : VersionLib :=
  ⟨DottedVersion, parseDotted, fun a b => segmentsLt a.segments b.segments, fun v => v.original⟩

/-- Example world: every helm command succeeds and the repository lists 1.3.0 then 1.2.0. -/
def sampleHelm : HelmTools :=
  ⟨fun _ _ => true, fun _ _ => some [⟨"1.3.0"⟩, ⟨"1.2.0"⟩], fun _ => true⟩

def fooChart : Chart := ⟨"foo", "foo-repo", "https://x", "1.2.0", ""⟩

/-! ## The image regular expression of generateDigests -/

/-- Syntax tree of the regular expressions used by `generateDigests`. A literal character is a
one-range class; `group` is capture group 1; a non-capturing group is plain nesting. -/
inductive Regex where
  | cls (neg : Bool) (ranges : List (Char × Char))
  | cat (a b : Regex)
  | alt (a b : Regex)
  | star (a : Regex) (greedy : Bool)
  | plus (a : Regex) (greedy : Bool)
  | group (a : Regex)

/-- A thread of the backtracking search: the offset reached, the text that is left, and the
bounds of capture group 1 when it has been set. Offsets count characters. -/
structure MatchState where
  pos : Nat
  rest : List Char
  cap : Option (Nat × Nat)
deriving DecidableEq, Repr

/-- Membership of a character in a class, by code point. -/
def inClass (neg : Bool) (ranges : List (Char × Char)) (c : Char) : Bool :=
  xor neg (ranges.any (fun r => decide (r.1.toNat ≤ c.toNat) && decide (c.toNat ≤ r.2.toNat)))

/-- Repetition of `step`, results in priority order: a greedy repetition prefers one more
iteration, a lazy one prefers to stop. An iteration must consume text, so `fuel` equal to the
length of the remaining text is never exhausted. -/
def iterate (step : MatchState → List MatchState) (greedy : Bool) :
    Nat → MatchState → List MatchState
  | 0, s => [s]
  | fuel + 1, s =>
    let more := ((step s).filter (fun t => t.rest.length < s.rest.length)).flatMap
      (iterate step greedy fuel)
    if greedy then more ++ [s] else s :: more

/-- All ways `re` matches at the start of the remaining text, in the order a backtracking
search tries them (the leftmost-first semantics of Go `regexp`). -/
def run : Regex → MatchState → List MatchState
  | .cls neg ranges, s =>
    match s.rest with
    | c :: cs => if inClass neg ranges c then [⟨s.pos + 1, cs, s.cap⟩] else []
    | [] => []
  | .cat a b, s => (run a s).flatMap (run b)
  | .alt a b, s => run a s ++ run b s
  | .star a greedy, s => iterate (run a) greedy s.rest.length s
  | .plus a greedy, s => (run a s).flatMap (fun t => iterate (run a) greedy t.rest.length t)
  | .group a, s => (run a s).map (fun t => { t with cap := some (s.pos, t.pos) })

/-- One match: bounds of the whole match and of capture group 1. -/
structure Match where
  start : Nat
  stop : Nat
  group1 : Option (Nat × Nat)
deriving DecidableEq, Repr

/-- Unanchored search from offset `pos`, where the given list is the text from `pos` on: the
leftmost start with a match, and there the match a backtracking search finds first. -/
def search (re : Regex) : Nat → List Char → Option Match
  | pos, [] =>
    match (run re ⟨pos, [], none⟩).head? with
    | some t => some ⟨pos, t.pos, t.cap⟩
    | none => none
  | pos, c :: cs =>
    match (run re ⟨pos, c :: cs, none⟩).head? with
    | some t => some ⟨pos, t.pos, t.cap⟩
    | none => search re (pos + 1) cs

/-- Loop of Go `(*Regexp).allMatches`; `i` counts delivered matches, `n` is their limit, and
`prevMatchEnd` is `none` for the initial value -1. Every iteration moves `pos` forward, so a
fuel of the text length plus two is never exhausted. -/
def allMatches (re : Regex) (text : List Char) (n : Nat) :
    Nat → Nat → Option Nat → Nat → List Match
  | 0, _, _, _ => []
  | fuel + 1, pos, prevMatchEnd, i =>
    if i < n ∧ pos ≤ text.length then
      match search re pos (text.drop pos) with
      | none => []
      | some m =>
        if m.stop = pos then
          let pos1 := if pos < text.length then pos + 1 else text.length + 1
          if some m.start = prevMatchEnd then
            allMatches re text n fuel pos1 (some m.stop) i
          else m :: allMatches re text n fuel pos1 (some m.stop) (i + 1)
        else m :: allMatches re text n fuel m.stop (some m.stop) (i + 1)
    else []

/-- Go `FindAllStringSubmatch(s, -1)` followed by the selection of submatch 1, as in the loop
`imagesRaw = append(imagesRaw, image[1])`: for every match the text of capture group 1, empty
when the group took no part. -/
def findAllSubmatch1 (re : Regex) (s : String) : List String :=
  (allMatches re s.toList (s.length + 1) (s.length + 2) 0 none 0).map (fun m =>
    match m.group1 with
    | some (a, b) => String.mk ((s.toList.drop a).take (b - a))
    | none => "")

/-- Perl class `\s` of Go regexp: tab, newline, form feed, carriage return, space. -/
def spaceRanges : List (Char × Char) :=
  [('\t', '\t'), ('\n', '\n'), (Char.ofNat 12, Char.ofNat 12), ('\r', '\r'), (' ', ' ')]

/-- Class `[a-zA-Z\-\.\/\_\\:'\d]`; code point 92 is the backslash, 39 the apostrophe. -/
def imageNameRanges : List (Char × Char) :=
  [('a', 'z'), ('A', 'Z'), ('-', '-'), ('.', '.'), ('/', '/'), ('_', '_'),
    (Char.ofNat 92, Char.ofNat 92), (':', ':'), (Char.ofNat 39, Char.ofNat 39), ('0', '9')]

/-- Class `[a-zA-Z\-\.\'\d]`. -/
def imageTagRanges : List (Char × Char) :=
  [('a', 'z'), ('A', 'Z'), ('-', '-'), ('.', '.'), (Char.ofNat 39, Char.ofNat 39), ('0', '9')]

/-- Leading part `(?:\s*?\S*?\s*?)` of the image regular expression. -/
def imageLead : Regex :=
  .cat (.star (.cls false spaceRanges) false)
    (.cat (.star (.cls true spaceRanges) false) (.star (.cls false spaceRanges) false))

/-- Literal `:`. -/
def colon : Regex := .cls false [(':', ':')]

/-- Capture group `([a-zA-Z\-\.\/\_\\:'\d]+:[a-zA-Z\-\.\'\d]+)`. -/
def imageGroup : Regex :=
  .group (.cat (.plus (.cls false imageNameRanges) true)
    (.cat colon (.plus (.cls false imageTagRanges) true)))

/-- Trailing part `(?:\n|\r)*?`. -/
def imageTail : Regex :=
  .star (.alt (.cls false [('\n', '\n')]) (.cls false [('\r', '\r')])) false

/-- The regular expression compiled in `generateDigests`:
`(?:\s*?\S*?\s*?)([a-zA-Z\-\.\/\_\\:'\d]+:[a-zA-Z\-\.\'\d]+)+(?:\n|\r)*?`. -/
def imageRegex : Regex :=
  .cat imageLead (.cat (.plus imageGroup true) imageTail)

/-- The raw image references that `generateDigests` collects from one rendered template. -/
def scrapeImages (template : String) : List String := findAllSubmatch1 imageRegex template

/-- Results of a lazy repetition of a one-character test `p`, in priority order. -/
def lazySpan (p : Char → Bool) (pos : Nat) (cap : Option (Nat × Nat)) :
    List Char → List MatchState
  | [] => [⟨pos, [], cap⟩]
  | c :: cs => ⟨pos, c :: cs, cap⟩ :: (if p c then lazySpan p (pos + 1) cap cs else [])

/-- Results of a greedy repetition of a one-character test `p`, in priority order. -/
def greedySpan (p : Char → Bool) (pos : Nat) (cap : Option (Nat × Nat)) :
    List Char → List MatchState
  | [] => [⟨pos, [], cap⟩]
  | c :: cs => (if p c then greedySpan p (pos + 1) cap cs else []) ++ [⟨pos, c :: cs, cap⟩]

/-- Characters allowed in the name part of an image line: letters, digits, `-`, `.`, `/`, `_`. -/
def nameChars : List (Char × Char) :=
  [('a', 'z'), ('A', 'Z'), ('0', '9'), ('-', '-'), ('.', '.'), ('/', '/'), ('_', '_')]

/-- Characters allowed in the tag part of an image line: letters, digits, `-`, `.`. -/
def tagChars : List (Char × Char) :=
  [('a', 'z'), ('A', 'Z'), ('0', '9'), ('-', '-'), ('.', '.')]

/-- The text `image: ` followed by `T`. -/
def imageLine (T : List Char) : List Char :=
  'i' :: 'm' :: 'a' :: 'g' :: 'e' :: ':' :: ' ' :: T

/-! ## unique -/

/-- Loop of `unique`: `inResult` is the key set of the Go map, `result` the slice built so far. -/
def uniqueLoop : List String → List String → List String → List String
  | _, result, [] => result
  | inResult, result, str :: rest =>
    if inResult.contains str then uniqueLoop inResult result rest
    else uniqueLoop (str :: inResult) (result ++ [str]) rest

def unique (s : List String) : List String := uniqueLoop [] [] s

/-! ## getDigests -/

/-- Registry inspector: the decoded output of the `i`-th `reg manifest` invocation of a run,
given its command line, or `none` when the command exits with an error. Output that
`json.Unmarshal` cannot decode leaves the response at its zero value. -/
abbrev Inspector := Nat → String → Option V2Response

/-- Local state of one iteration of `getDigests`: the copy `image.Digests`, `foundAmd` and
`foundArm`. -/
structure Scan where
  digests : Digests
  foundAmd : Bool
  foundArm : Bool
deriving DecidableEq, Repr

/-- Body of `for _, manifest := range v2Response.Manifests`. -/
def scanManifest (st : Scan) (manifest : Manifest) : Scan :=
  if manifest.Platform.Architecture = "amd64" then
    { st with digests := { st.digests with Amd64 := manifest.Digest }, foundAmd := true }
  else if manifest.Platform.Architecture = "arm64" then
    { st with digests := { st.digests with Arm64 := manifest.Digest }, foundArm := true }
  else st

/-- Command line of the registry inspector for one image; `regPathEnv` is `REG_PATH`. -/
def manifestCommand (regPathEnv : String) (image : Image) : String :=
  let regPath := if regPathEnv.length = 0 then "reg" else regPathEnv
  regPath ++ " manifest " ++ image.RawName

/-- Loop `for i, image := range images` of `getDigests`, from index `i` on. -/
def getDigestsFrom (reg : Inspector) (regPathEnv : String) :
    Nat → List Image → Except Abort (List Image)
  | _, [] => .ok []
  | i, image :: rest =>
    match reg i (manifestCommand regPathEnv image) with
    | none => .error (.failed (manifestCommand regPathEnv image))
    | some v2Response =>
      let st := v2Response.Manifests.foldl scanManifest ⟨image.Digests, false, false⟩
      if !st.foundAmd || !st.foundArm then
        .error (.fatal ("Failed to find both ARM and AMD digests for image " ++ image.RawName))
      else
        match getDigestsFrom reg regPathEnv (i + 1) rest with
        | .ok rest1 => .ok ({ image with Digests := st.digests } :: rest1)
        | .error e => .error e

def getDigests (reg : Inspector) (regPathEnv : String) (images : List Image) :
    Except Abort (List Image) :=
  getDigestsFrom reg regPathEnv 0 images

/-- The response used for the image at index `i`. -/
def responseAt (reg : Inspector) (regPathEnv : String) (i : Nat) (image : Image) : V2Response :=
  (reg i (manifestCommand regPathEnv image)).getD ⟨[]⟩

/-- The manifest list has an entry whose platform architecture is `arch`. -/
def hasArch (arch : String) (v : V2Response) : Prop :=
  ∃ m ∈ v.Manifests, m.Platform.Architecture = arch

def mkManifest (digest arch : String) : Manifest := ⟨digest, "", ⟨arch, "linux", ""⟩⟩

def sampleImage : Image :=
  ⟨"quay.io", "argoproj/argoexec", "quay.io/argoproj/argoexec:v3.0.0", ⟨"", ""⟩⟩

/-- Inspector whose every answer lists a single amd64 manifest. -/
def amdOnly : Inspector := fun _ _ => some ⟨[mkManifest "sha256:aa" "amd64"]⟩

/-- Inspector whose every answer lists an amd64 and an arm64 manifest. -/
def bothArch : Inspector :=
  fun _ _ => some ⟨[mkManifest "sha256:aa" "amd64", mkManifest "sha256:bb" "arm64"]⟩

/-- Inspector whose every answer lists both architectures with an empty digest string. -/
def blankDigests : Inspector :=
  fun _ _ => some ⟨[mkManifest "" "amd64", mkManifest "" "arm64"]⟩

/-! ## registryLogin -/

/-- One `docker login <registry> --username <username> --password-stdin` invocation with the
text fed to its standard input. -/
structure LoginCall where
  registry : String
  username : String
  password : String
deriving DecidableEq, Repr

/-- Environment variables read by `registryLogin`. -/
structure LoginEnv where
  QUAY_USERNAME : String
  QUAY_PASSWORD : String
  GCR_JSON_KEY : String

/-- External commands of the login step: `awsPassword region` is the output of
`aws ecr get-login-password --region region` (`none` when it fails), `dockerLogin call` tells
whether the `docker login` invocation succeeds. -/
structure LoginTools where
  awsPassword : String → Option String
  dockerLogin : LoginCall → Bool

def checkList (list : List String) (checkEntry : String) : Bool :=
  match list with
  | [] => false
  | entry :: rest => if checkEntry = entry then true else checkList rest checkEntry

/-- The function `stdinLogin`: the `docker login` invocations it issues and how it ends. -/
def stdinLogin (tools : LoginTools) (registry username password : String) :
    List LoginCall × Except Abort Unit :=
  let login (username password : String) : List LoginCall × Except Abort Unit :=
    let call : LoginCall := ⟨registry, username, password⟩
    if tools.dockerLogin call then ([call], .ok ())
    else ([call], .error (.failed ("docker login " ++ registry)))
  if stringsContains registry "ecr" then
    let registryWords := stringsSplit registry '.'
    if registryWords.length < 3 then
      ([], .error (.panic "index out of range"))
    else
      let region := registryWords.getD (registryWords.length - 3) ""
      match tools.awsPassword region with
      | none => ([], .error (.failed ("aws ecr get-login-password --region " ++ region)))
      | some newPassword => login "AWS" newPassword
  else login username password

/-- The guarded call `if !checkList(loggedInList, registry) { stdinLogin(...); append }`: the
invocations issued and the new `loggedInList`. -/
def loginOnce (tools : LoginTools) (loggedInList : List String)
    (registry username password : String) : List LoginCall × Except Abort (List String) :=
  if !checkList loggedInList registry then
    match stdinLogin tools registry username password with
    | (calls, .ok ()) => (calls, .ok (loggedInList ++ [registry]))
    | (calls, .error e) => (calls, .error e)
  else ([], .ok loggedInList)

/-- Body of the loop `for _, image := range images` of `registryLogin`. -/
def registryStep (env : LoginEnv) (tools : LoginTools) (loggedInList : List String)
    (image : Image) : List LoginCall × Except Abort (List String) :=
  let registry := image.Registry
  if registry = "quay.io" then
    loginOnce tools loggedInList registry env.QUAY_USERNAME env.QUAY_PASSWORD
  else if stringsContains registry "gcr.io" then
    loginOnce tools loggedInList registry "_json_key" env.GCR_JSON_KEY
  else if stringsContains registry ".ecr." then
    loginOnce tools loggedInList registry "" ""
  else if registry ≠ "" then
    ([], .error (.fatal ("No login configuration for " ++ registry)))
  else ([], .ok loggedInList)

/-- Loop of `registryLogin` with the current `loggedInList`: all `docker login` invocations
issued, in order, and how the loop ends. -/
def registryLoginLoop (env : LoginEnv) (tools : LoginTools) :
    List String → List Image → List LoginCall × Except Abort Unit
  | _, [] => ([], .ok ())
  | loggedInList, image :: rest =>
    match registryStep env tools loggedInList image with
    | (calls, .ok loggedInList1) =>
      let next := registryLoginLoop env tools loggedInList1 rest
      (calls ++ next.1, next.2)
    | (calls, .error e) => (calls, .error e)

def registryLogin (env : LoginEnv) (tools : LoginTools) (images : List Image) :
    List LoginCall × Except Abort Unit :=
  registryLoginLoop env tools [] images

/-- Classification used by `registryLogin`: the registries that have a login configuration. -/
def recognized (registry : String) : Bool :=
  registry = "quay.io" || stringsContains registry "gcr.io" || stringsContains registry ".ecr."

/-- An image of the given registry host. -/
def imageAt (registry : String) : Image := ⟨registry, "app/web", registry ++ "/app/web:1.0", ⟨"", ""⟩⟩

def sampleEnv : LoginEnv := ⟨"quay-user", "quay-pass", "gcr-key"⟩

/-- Login tools that always succeed; the token names the region it was asked for. -/
def sampleTools : LoginTools := ⟨fun region => some ("token-" ++ region), fun _ => true⟩

/-! ## PullRequest -/

/-- Title and body text built by `PullRequest`. -/
structure PullRequestText where
  title : String
  body : String
deriving DecidableEq, Repr

/-- Body of the loop `for _, chart := range charts` of `PullRequest`. -/
def pullRequestStep (st : PullRequestText) (chart : Chart) : PullRequestText :=
  { title := st.title ++
      (chart.Name ++ " from " ++ chart.OldVersion ++ " to " ++ chart.Version ++ ", "),
    body := st.body ++
      ("Bumps " ++ chart.Name ++ " Helm Chart version from " ++ chart.OldVersion ++ " to "
        ++ chart.Version ++ ".\n") }

/-- The text that `PullRequest` logs and passes to `gh pr create`. -/
def pullRequestText (charts : List Chart) (changedImages : Bool) : PullRequestText :=
  let st := charts.foldl pullRequestStep ⟨"Bump ", "## Terraform Helm Updater\n"⟩
  let pullRequestBody :=
    if changedImages then st.body ++ "\n---\nAlso updated list of image digests." else st.body
  ⟨sliceTo st.title (st.title.length - 2), pullRequestBody⟩

/-- One title entry in the words of the specification: `<name> from <oldVersion> to <version>`. -/
def bumpEntry (chart : Chart) : String :=
  chart.Name ++ " from " ++ chart.OldVersion ++ " to " ++ chart.Version

/-- One body line in the words of the specification, newline included. -/
def bumpLine (chart : Chart) : String :=
  "Bumps " ++ chart.Name ++ " Helm Chart version from " ++ chart.OldVersion ++ " to "
    ++ chart.Version ++ ".\n"

def sampleBumps : List Chart :=
  [⟨"foo", "foo-repo", "https://x", "1.3.0", "1.2.0"⟩, ⟨"bar", "bar-repo", "https://y", "2.0", "1.0"⟩]

/-! ## Command -/

/-- The closure passed to `strings.FieldsFunc` in `Command`: it flips the captured variable
`quoted` at a double quote and reports a separator for a space outside quotes. Returns the new
value of `quoted` and the result of the call. -/
def quoteSplit (quoted : Bool) (r : Char) : Bool × Bool :=
  let quoted := if r = dquote then !quoted else quoted
  (quoted, !quoted && r = ' ')

/-- Go `strings.FieldsFunc` run with the closure of `Command`: one call of the closure per
character, in order; `field` is the field currently open (the text since `start`), if any. -/
def fieldsFunc : Bool → Option (List Char) → List Char → List (List Char)
  | _, field, [] =>
    match field with
    | some w => [w]
    | none => []
  | quoted, field, r :: rest =>
    if (quoteSplit quoted r).2 then
      match field with
      | some w => w :: fieldsFunc (quoteSplit quoted r).1 none rest
      | none => fieldsFunc (quoteSplit quoted r).1 none rest
    else fieldsFunc (quoteSplit quoted r).1 (some (field.getD [] ++ [r])) rest

/-- Go `strings.Trim` with the cutset of one double quote: strips all leading and trailing
double quotes. -/
def trimQuotes (s : List Char) : List Char :=
  ((s.dropWhile (· = dquote)).reverse.dropWhile (· = dquote)).reverse

/-- The argument vector `input` that `Command` hands to `exec.Command`. -/
def commandArgs (inputString : String) : List String :=
  (fieldsFunc false none inputString.toList).map (fun s => String.mk (trimQuotes s))

/-- Maximal runs of non-space characters of a string, in the words of the specification. -/
def nonSpaceRuns (s : String) : List String :=
  ((s.toList.splitOn ' ').filter (· ≠ [])).map String.mk

/-! ## Properties of unique -/

theorem uniqueLoop_eq (seen result s : List String) :
    uniqueLoop seen result s = result ++ uniqueLoop seen [] s := by
  induction s generalizing seen result with
  | nil => simp [uniqueLoop]
  | cons x xs ih =>
    simp only [uniqueLoop]
    split
    · exact ih _ _
    · rw [ih, ih (x :: seen) ([] ++ [x])]; simp

theorem uniqueLoop_cons (seen : List String) (x : String) (xs : List String) :
    uniqueLoop seen [] (x :: xs)
      = if x ∈ seen then uniqueLoop seen [] xs else x :: uniqueLoop (x :: seen) [] xs := by
  by_cases h : x ∈ seen
  · simp [uniqueLoop, h]
  · rw [uniqueLoop]
    simp only [List.elem_eq_mem, decide_eq_true_eq, h, if_false]
    rw [uniqueLoop_eq]; simp

theorem mem_uniqueLoop (seen s : List String) (y : String) :
    y ∈ uniqueLoop seen [] s ↔ y ∈ s ∧ y ∉ seen := by
  induction s generalizing seen with
  | nil => simp [uniqueLoop]
  | cons x xs ih =>
    rw [uniqueLoop_cons]
    by_cases h : x ∈ seen
    · simp only [h, if_true, ih, List.mem_cons]
      constructor
      · rintro ⟨h1, h2⟩; exact ⟨Or.inr h1, h2⟩
      · rintro ⟨h1 | h1, h2⟩
        · subst h1; exact absurd h h2
        · exact ⟨h1, h2⟩
    · simp only [h, if_false, List.mem_cons, ih, not_or]
      constructor
      · rintro (h1 | ⟨h1, h2, h3⟩)
        · subst h1; exact ⟨Or.inl rfl, h⟩
        · exact ⟨Or.inr h1, h3⟩
      · rintro ⟨h1 | h1, h2⟩
        · exact Or.inl h1
        · by_cases hx : y = x
          · exact Or.inl hx
          · exact Or.inr ⟨h1, hx, h2⟩

theorem nodup_uniqueLoop (seen s : List String) : (uniqueLoop seen [] s).Nodup := by
  induction s generalizing seen with
  | nil => simp [uniqueLoop]
  | cons x xs ih =>
    rw [uniqueLoop_cons]
    split
    · exact ih _
    · refine List.nodup_cons.mpr ⟨?_, ih _⟩
      simp [mem_uniqueLoop]

theorem sublist_uniqueLoop (seen s : List String) : (uniqueLoop seen [] s).Sublist s := by
  induction s generalizing seen with
  | nil => simp [uniqueLoop]
  | cons x xs ih =>
    rw [uniqueLoop_cons]
    split
    · exact (ih _).cons _
    · exact (ih _).cons₂ _

theorem indexOf_uniqueLoop (seen s : List String) (a b : String)
    (ha : a ∈ uniqueLoop seen [] s) (hb : b ∈ uniqueLoop seen [] s) :
    (List.indexOf a (uniqueLoop seen [] s) < List.indexOf b (uniqueLoop seen [] s)
      ↔ List.indexOf a s < List.indexOf b s) := by
  induction s generalizing seen with
  | nil => simp [uniqueLoop] at ha
  | cons x xs ih =>
    rw [uniqueLoop_cons] at ha hb ⊢
    by_cases h : x ∈ seen
    · simp only [h, if_true] at ha hb ⊢
      have hax : a ≠ x := by
        rintro rfl; exact ((mem_uniqueLoop _ _ _).mp ha).2 h
      have hbx : b ≠ x := by
        rintro rfl; exact ((mem_uniqueLoop _ _ _).mp hb).2 h
      rw [List.indexOf_cons_ne _ hax.symm, List.indexOf_cons_ne _ hbx.symm, ih seen ha hb]
      simp only [Nat.succ_eq_add_one]
      omega
    · simp only [h, if_false] at ha hb ⊢
      by_cases hax : a = x
      · subst hax
        by_cases hbx : b = a
        · subst hbx; simp
        · simp [List.indexOf_cons_ne _ (Ne.symm hbx)]
      · have ha2 : a ∈ uniqueLoop (x :: seen) [] xs := by
          rcases List.mem_cons.mp ha with h1 | h1
          · exact absurd h1 hax
          · exact h1
        by_cases hbx : b = x
        · subst hbx
          simp
        · have hb2 : b ∈ uniqueLoop (x :: seen) [] xs := by
            rcases List.mem_cons.mp hb with h1 | h1
            · exact absurd h1 hbx
            · exact h1
          rw [List.indexOf_cons_ne _ (Ne.symm hax), List.indexOf_cons_ne _ (Ne.symm hbx),
            List.indexOf_cons_ne _ (Ne.symm hax), List.indexOf_cons_ne _ (Ne.symm hbx)]
          have := ih _ ha2 hb2
          simp only [Nat.succ_eq_add_one]
          omega

/-- C3: for every list of strings, `unique` deduplicates by exact string equality. The result
has no string twice, holds exactly the strings of the input, is a sublist of the input, and
lists the strings in the order of their first occurrence in the input. -/
theorem unique_spec (s : List String) :
    (unique s).Nodup
    ∧ (∀ x, x ∈ unique s ↔ x ∈ s)
    ∧ (unique s).Sublist s
    ∧ (∀ a b, a ∈ s → b ∈ s →
        (List.indexOf a (unique s) < List.indexOf b (unique s)
          ↔ List.indexOf a s < List.indexOf b s)) := by
  refine ⟨nodup_uniqueLoop _ _, ?_, sublist_uniqueLoop _ _, ?_⟩
  · intro x; simp [unique, mem_uniqueLoop]
  · intro a b ha hb
    exact indexOf_uniqueLoop [] s a b (by simp [mem_uniqueLoop, ha]) (by simp [mem_uniqueLoop, hb])

theorem uniqueLoop_congr (s1 s2 l : List String) (h : ∀ x, x ∈ s1 ↔ x ∈ s2) :
    uniqueLoop s1 [] l = uniqueLoop s2 [] l := by
  induction l generalizing s1 s2 with
  | nil => simp [uniqueLoop]
  | cons x xs ih =>
    rw [uniqueLoop_cons, uniqueLoop_cons]
    by_cases hx : x ∈ s1
    · have hx2 : x ∈ s2 := (h x).mp hx
      simp only [hx, hx2, if_true]
      exact ih _ _ h
    · have hx2 : x ∉ s2 := fun h2 => hx ((h x).mpr h2)
      simp only [hx, hx2, if_false]
      rw [ih (x :: s1) (x :: s2)]
      intro y; simp [h y]

/-! ## Properties of getDigests -/

theorem scan_foundAmd (ms : List Manifest) (st : Scan) :
    (ms.foldl scanManifest st).foundAmd = true
      ↔ st.foundAmd = true ∨ ∃ m ∈ ms, m.Platform.Architecture = "amd64" := by
  induction ms generalizing st with
  | nil => simp
  | cons m ms ih =>
    rw [List.foldl_cons, ih]
    unfold scanManifest
    by_cases h1 : m.Platform.Architecture = "amd64"
    · simp [h1]
    · by_cases h2 : m.Platform.Architecture = "arm64" <;> simp [h1, h2]

theorem scan_foundArm (ms : List Manifest) (st : Scan) :
    (ms.foldl scanManifest st).foundArm = true
      ↔ st.foundArm = true ∨ ∃ m ∈ ms, m.Platform.Architecture = "arm64" := by
  induction ms generalizing st with
  | nil => simp
  | cons m ms ih =>
    rw [List.foldl_cons, ih]
    unfold scanManifest
    by_cases h1 : m.Platform.Architecture = "amd64"
    · have h2 : m.Platform.Architecture ≠ "arm64" := by rw [h1]; decide
      simp [h1, h2]
    · by_cases h2 : m.Platform.Architecture = "arm64" <;> simp [h1, h2]

theorem scan_amd64_keep (ms : List Manifest) (st : Scan)
    (h : ∀ m ∈ ms, m.Platform.Architecture ≠ "amd64") :
    (ms.foldl scanManifest st).digests.Amd64 = st.digests.Amd64 := by
  induction ms generalizing st with
  | nil => simp
  | cons m ms ih =>
    rw [List.foldl_cons, ih _ (fun m' hm' => h m' (List.mem_cons_of_mem _ hm'))]
    have h1 := h m (List.mem_cons_self _ _)
    by_cases h2 : m.Platform.Architecture = "arm64" <;> simp [scanManifest, h1, h2]

theorem scan_arm64_keep (ms : List Manifest) (st : Scan)
    (h : ∀ m ∈ ms, m.Platform.Architecture ≠ "arm64") :
    (ms.foldl scanManifest st).digests.Arm64 = st.digests.Arm64 := by
  induction ms generalizing st with
  | nil => simp
  | cons m ms ih =>
    rw [List.foldl_cons, ih _ (fun m' hm' => h m' (List.mem_cons_of_mem _ hm'))]
    have h2 := h m (List.mem_cons_self _ _)
    by_cases h1 : m.Platform.Architecture = "amd64" <;> simp [scanManifest, h1, h2]

theorem scan_amd64 (ms : List Manifest) (st : Scan)
    (h : ∃ m ∈ ms, m.Platform.Architecture = "amd64") :
    ∃ m ∈ ms, m.Platform.Architecture = "amd64"
      ∧ (ms.foldl scanManifest st).digests.Amd64 = m.Digest := by
  induction ms generalizing st with
  | nil => simp at h
  | cons m ms ih =>
    rw [List.foldl_cons]
    by_cases hex : ∃ m' ∈ ms, m'.Platform.Architecture = "amd64"
    · obtain ⟨m', hm', ha, hd⟩ := ih (scanManifest st m) hex
      exact ⟨m', List.mem_cons_of_mem _ hm', ha, hd⟩
    · have hno : ∀ m' ∈ ms, m'.Platform.Architecture ≠ "amd64" :=
        fun m' hm' ha => hex ⟨m', hm', ha⟩
      obtain ⟨m', hm', ha⟩ := h
      rcases List.mem_cons.mp hm' with rfl | hin
      · refine ⟨m', List.mem_cons_self _ _, ha, ?_⟩
        rw [scan_amd64_keep ms _ hno]; simp [scanManifest, ha]
      · exact absurd ha (hno m' hin)

theorem scan_arm64 (ms : List Manifest) (st : Scan)
    (h : ∃ m ∈ ms, m.Platform.Architecture = "arm64") :
    ∃ m ∈ ms, m.Platform.Architecture = "arm64"
      ∧ (ms.foldl scanManifest st).digests.Arm64 = m.Digest := by
  induction ms generalizing st with
  | nil => simp at h
  | cons m ms ih =>
    rw [List.foldl_cons]
    by_cases hex : ∃ m' ∈ ms, m'.Platform.Architecture = "arm64"
    · obtain ⟨m', hm', ha, hd⟩ := ih (scanManifest st m) hex
      exact ⟨m', List.mem_cons_of_mem _ hm', ha, hd⟩
    · have hno : ∀ m' ∈ ms, m'.Platform.Architecture ≠ "arm64" :=
        fun m' hm' ha => hex ⟨m', hm', ha⟩
      obtain ⟨m', hm', ha⟩ := h
      rcases List.mem_cons.mp hm' with rfl | hin
      · refine ⟨m', List.mem_cons_self _ _, ha, ?_⟩
        have h1 : m'.Platform.Architecture ≠ "amd64" := by rw [ha]; decide
        rw [scan_arm64_keep ms _ hno]; simp [scanManifest, ha, h1]
      · exact absurd ha (hno m' hin)

/-- One image passes the check of `getDigests` exactly when its response has both architectures. -/
theorem scan_pass (v : V2Response) (d : Digests) :
    let st := v.Manifests.foldl scanManifest ⟨d, false, false⟩
    ((!st.foundAmd || !st.foundArm) = false) ↔ (hasArch "amd64" v ∧ hasArch "arm64" v) := by
  intro st
  have h1 := scan_foundAmd v.Manifests ⟨d, false, false⟩
  have h2 := scan_foundArm v.Manifests ⟨d, false, false⟩
  simp only [Bool.false_eq_true, false_or] at h1 h2
  simp only [Bool.or_eq_false_iff, Bool.not_eq_false', hasArch]
  exact and_congr h1 h2

theorem getDigestsFrom_abort (reg : Inspector) (env : String) (k : Nat) (images : List Image)
    (hrun : ∀ j img, images[j]? = some img →
      (reg (k + j) (manifestCommand env img)).isSome = true) (e : Abort)
    (h : getDigestsFrom reg env k images = .error e) :
    ∃ j img, images[j]? = some img
      ∧ (∀ j' img', j' < j → images[j']? = some img' →
          hasArch "amd64" (responseAt reg env (k + j') img')
            ∧ hasArch "arm64" (responseAt reg env (k + j') img'))
      ∧ ¬ (hasArch "amd64" (responseAt reg env (k + j) img)
            ∧ hasArch "arm64" (responseAt reg env (k + j) img))
      ∧ e = .fatal ("Failed to find both ARM and AMD digests for image " ++ img.RawName) := by
  induction images generalizing k with
  | nil => simp [getDigestsFrom] at h
  | cons image rest ih =>
    rw [getDigestsFrom] at h
    obtain ⟨v, hv⟩ := Option.isSome_iff_exists.mp (hrun 0 image (by simp))
    rw [Nat.add_zero] at hv
    have hrest : ∀ j img, rest[j]? = some img →
        (reg (k + 1 + j) (manifestCommand env img)).isSome = true := by
      intro j img hj
      have := hrun (j + 1) img (by simpa using hj)
      rwa [show k + (j + 1) = k + 1 + j by omega] at this
    rw [hv] at h
    simp only at h
    have hresp : responseAt reg env k image = v := by simp [responseAt, hv]
    by_cases hp : hasArch "amd64" v ∧ hasArch "arm64" v
    · have hp' := (scan_pass v image.Digests).mpr hp
      simp only at hp'
      rw [hp'] at h
      simp only [Bool.false_eq_true, if_false] at h
      cases hrec : getDigestsFrom reg env (k + 1) rest with
      | ok r => rw [hrec] at h; simp at h
      | error e' =>
        rw [hrec] at h
        simp only [Except.error.injEq] at h
        subst h
        obtain ⟨j, img, hj, hpre, hbad, he⟩ := ih (k + 1) hrest hrec
        refine ⟨j + 1, img, by simpa using hj, ?_, ?_, he⟩
        · intro j' img' hlt hj'
          cases j' with
          | zero =>
            simp only [List.getElem?_cons_zero, Option.some.injEq] at hj'
            subst hj'
            simpa [hresp] using hp
          | succ n =>
            have := hpre n img' (by omega) (by simpa using hj')
            rwa [show k + (n + 1) = k + 1 + n by omega]
        · rwa [show k + (j + 1) = k + 1 + j by omega]
    · have hp' : (!(v.Manifests.foldl scanManifest ⟨image.Digests, false, false⟩).foundAmd
          || !(v.Manifests.foldl scanManifest ⟨image.Digests, false, false⟩).foundArm) = true := by
        by_contra hne
        have hf : (!(v.Manifests.foldl scanManifest ⟨image.Digests, false, false⟩).foundAmd
          || !(v.Manifests.foldl scanManifest ⟨image.Digests, false, false⟩).foundArm) = false := by
          simpa using hne
        exact hp ((scan_pass v image.Digests).mp hf)
      rw [hp'] at h
      simp only [if_true, Except.error.injEq] at h
      refine ⟨0, image, by simp, ?_, ?_, h.symm⟩
      · intro j' img' hlt; omega
      · simpa [hresp] using hp

theorem getDigestsFrom_ok (reg : Inspector) (env : String) (k : Nat) (images out : List Image)
    (h : getDigestsFrom reg env k images = .ok out) :
    out.length = images.length
      ∧ ∀ j img o, images[j]? = some img → out[j]? = some o →
          o.Registry = img.Registry ∧ o.Name = img.Name ∧ o.RawName = img.RawName
          ∧ reg (k + j) (manifestCommand env img) = some (responseAt reg env (k + j) img)
          ∧ (∃ m ∈ (responseAt reg env (k + j) img).Manifests,
              m.Platform.Architecture = "amd64" ∧ o.Digests.Amd64 = m.Digest)
          ∧ (∃ m ∈ (responseAt reg env (k + j) img).Manifests,
              m.Platform.Architecture = "arm64" ∧ o.Digests.Arm64 = m.Digest) := by
  induction images generalizing k out with
  | nil =>
    simp only [getDigestsFrom, Except.ok.injEq] at h
    subst h; simp
  | cons image rest ih =>
    rw [getDigestsFrom] at h
    cases hv : reg k (manifestCommand env image) with
    | none => rw [hv] at h; simp at h
    | some v =>
      rw [hv] at h
      simp only at h
      have hresp : responseAt reg env k image = v := by simp [responseAt, hv]
      split at h
      · simp at h
      · rename_i hchk
        cases hrec : getDigestsFrom reg env (k + 1) rest with
        | error e' => rw [hrec] at h; simp at h
        | ok r =>
          rw [hrec] at h
          simp only [Except.ok.injEq] at h
          subst h
          obtain ⟨hlen, hall⟩ := ih (k + 1) r hrec
          refine ⟨by simp [hlen], ?_⟩
          intro j img o hj ho
          cases j with
          | zero =>
            simp only [List.getElem?_cons_zero, Option.some.injEq] at hj ho
            subst hj ho
            simp only [Bool.not_eq_true, Bool.or_eq_false_iff, Bool.not_eq_false'] at hchk
            have hA := (scan_foundAmd v.Manifests ⟨image.Digests, false, false⟩).mp hchk.1
            have hR := (scan_foundArm v.Manifests ⟨image.Digests, false, false⟩).mp hchk.2
            simp only [Bool.false_eq_true, false_or] at hA hR
            refine ⟨rfl, rfl, rfl, by simpa [hresp] using hv, ?_, ?_⟩
            · rw [Nat.add_zero, hresp]; exact scan_amd64 v.Manifests _ hA
            · rw [Nat.add_zero, hresp]; exact scan_arm64 v.Manifests _ hR
          | succ n =>
            have := hall n img o (by simpa using hj) (by simpa using ho)
            rwa [show k + (n + 1) = k + 1 + n by omega]

/-- C4: when every inspector call succeeds, `getDigests` aborts exactly when the response of
some image lacks an amd64 entry or lacks an arm64 entry; the abort happens at the first such
image in list order, by `log.Fatal` after the log line that names its raw reference. -/
theorem getDigests_abort_iff (reg : Inspector) (env : String) (images : List Image)
    (hrun : ∀ j img, images[j]? = some img →
      (reg j (manifestCommand env img)).isSome = true) :
    ((∃ e, getDigests reg env images = .error e) ↔
      ∃ j img, images[j]? = some img
        ∧ ¬ (hasArch "amd64" (responseAt reg env j img)
              ∧ hasArch "arm64" (responseAt reg env j img)))
    ∧ (∀ e, getDigests reg env images = .error e →
        ∃ j img, images[j]? = some img
          ∧ (∀ j' img', j' < j → images[j']? = some img' →
              hasArch "amd64" (responseAt reg env j' img')
                ∧ hasArch "arm64" (responseAt reg env j' img'))
          ∧ ¬ (hasArch "amd64" (responseAt reg env j img)
                ∧ hasArch "arm64" (responseAt reg env j img))
          ∧ e = .fatal ("Failed to find both ARM and AMD digests for image " ++ img.RawName)) := by
  have hrun0 : ∀ j img, images[j]? = some img →
      (reg (0 + j) (manifestCommand env img)).isSome = true := by
    intro j img hj; rw [Nat.zero_add]; exact hrun j img hj
  have hfirst : ∀ e, getDigests reg env images = .error e →
      ∃ j img, images[j]? = some img
        ∧ (∀ j' img', j' < j → images[j']? = some img' →
            hasArch "amd64" (responseAt reg env j' img')
              ∧ hasArch "arm64" (responseAt reg env j' img'))
        ∧ ¬ (hasArch "amd64" (responseAt reg env j img)
              ∧ hasArch "arm64" (responseAt reg env j img))
        ∧ e = .fatal ("Failed to find both ARM and AMD digests for image " ++ img.RawName) := by
    intro e he
    have := getDigestsFrom_abort reg env 0 images hrun0 e he
    simpa only [Nat.zero_add] using this
  refine ⟨⟨?_, ?_⟩, hfirst⟩
  · rintro ⟨e, he⟩
    obtain ⟨j, img, hj, _, hbad, _⟩ := hfirst e he
    exact ⟨j, img, hj, hbad⟩
  · rintro ⟨j, img, hj, hbad⟩
    cases hres : getDigests reg env images with
    | error e => exact ⟨e, rfl⟩
    | ok out =>
      exfalso
      obtain ⟨hlen, hall⟩ := getDigestsFrom_ok reg env 0 images out hres
      have hjlt : j < images.length := by
        by_contra hge
        rw [List.getElem?_eq_none (by omega)] at hj
        exact Option.noConfusion hj
      have hjo : j < out.length := by omega
      obtain ⟨_, _, _, _, ⟨m1, hm1, ha1, _⟩, ⟨m2, hm2, ha2, _⟩⟩ :=
        hall j img (out.get ⟨j, hjo⟩) hj (List.getElem?_eq_getElem hjo)
      rw [Nat.zero_add] at hm1 hm2
      exact hbad ⟨⟨m1, hm1, ha1⟩, ⟨m2, hm2, ha2⟩⟩

/-- C4 instance: a response that lists only an amd64 manifest aborts the run, with the log
line naming the image. -/
theorem getDigests_abort_iff_amdOnly :
    (∀ j img, [sampleImage][j]? = some img →
      (amdOnly j (manifestCommand "" img)).isSome = true)
    ∧ getDigests amdOnly "" [sampleImage] = .error (.fatal
        "Failed to find both ARM and AMD digests for image quay.io/argoproj/argoexec:v3.0.0") := by
  have hrun : ∀ j img, [sampleImage][j]? = some img →
      (amdOnly j (manifestCommand "" img)).isSome = true := fun _ _ _ => rfl
  refine ⟨hrun, ?_⟩
  have h := getDigests_abort_iff amdOnly "" [sampleImage] hrun
  obtain ⟨e, he⟩ := h.1.mpr ⟨0, sampleImage, rfl, by
    rintro ⟨_, ⟨m, hm, ha⟩⟩
    simp only [responseAt, amdOnly, Option.getD_some, List.mem_singleton] at hm
    subst hm
    exact absurd ha (by decide)⟩
  obtain ⟨j, img, hj, _, _, hmsg⟩ := h.2 e he
  have hj0 : img = sampleImage := by
    cases j with
    | zero => simpa using hj.symm
    | succ n => simp at hj
  rw [he, hmsg, hj0]
  rfl

/-- C5 counterexample: both architectures are listed with an empty digest string, the run
returns normally and the returned entry has empty digest fields. -/
theorem getDigests_blank_digests :
    getDigests blankDigests "" [sampleImage] = .ok [sampleImage]
    ∧ sampleImage.Digests.Amd64 = "" ∧ sampleImage.Digests.Arm64 = "" := by
  decide

/-- C5, amended: whenever `getDigests` returns normally, the returned list has the length and
order of the input, every entry keeps Registry, Name and RawName, its Amd64 digest is the
digest of an amd64 manifest entry of its response and its Arm64 digest that of an arm64
entry; both are non-empty when every manifest entry of the response has a non-empty digest. -/
theorem getDigests_ok_spec (reg : Inspector) (env : String) (images out : List Image)
    (h : getDigests reg env images = .ok out) :
    out.length = images.length
    ∧ ∀ j img o, images[j]? = some img → out[j]? = some o →
        o.Registry = img.Registry ∧ o.Name = img.Name ∧ o.RawName = img.RawName
        ∧ (∃ m ∈ (responseAt reg env j img).Manifests,
            m.Platform.Architecture = "amd64" ∧ o.Digests.Amd64 = m.Digest)
        ∧ (∃ m ∈ (responseAt reg env j img).Manifests,
            m.Platform.Architecture = "arm64" ∧ o.Digests.Arm64 = m.Digest)
        ∧ ((∀ m ∈ (responseAt reg env j img).Manifests, m.Digest ≠ "") →
            o.Digests.Amd64 ≠ "" ∧ o.Digests.Arm64 ≠ "") := by
  obtain ⟨hlen, hall⟩ := getDigestsFrom_ok reg env 0 images out h
  refine ⟨hlen, ?_⟩
  intro j img o hj ho
  obtain ⟨h1, h2, h3, _, ⟨m1, hm1, ha1, hd1⟩, ⟨m2, hm2, ha2, hd2⟩⟩ := hall j img o hj ho
  rw [Nat.zero_add] at hm1 hm2
  refine ⟨h1, h2, h3, ⟨m1, hm1, ha1, hd1⟩, ⟨m2, hm2, ha2, hd2⟩, ?_⟩
  intro hne
  exact ⟨by rw [hd1]; exact hne m1 hm1, by rw [hd2]; exact hne m2 hm2⟩

/-- C5 instance: a response with both architectures fills both digest fields. -/
theorem getDigests_ok_spec_bothArch :
    getDigests bothArch "" [sampleImage]
        = .ok [{ sampleImage with Digests := ⟨"sha256:aa", "sha256:bb"⟩ }]
    ∧ [{ sampleImage with Digests := ⟨"sha256:aa", "sha256:bb"⟩ }].length
        = [sampleImage].length :=
  ⟨by decide,
    (getDigests_ok_spec bothArch "" [sampleImage]
      [{ sampleImage with Digests := ⟨"sha256:aa", "sha256:bb"⟩ }] (by decide)).1⟩

/-! ## Properties of registryLogin -/

theorem checkList_iff (l : List String) (x : String) : checkList l x = true ↔ x ∈ l := by
  induction l with
  | nil => simp [checkList]
  | cons y ys ih =>
    unfold checkList
    by_cases h : x = y
    · simp [h]
    · simp [h, ih]

theorem stdinLogin_calls (tools : LoginTools) (r u p : String) :
    ((stdinLogin tools r u p).1 = [] ∨ (stdinLogin tools r u p).1.map LoginCall.registry = [r])
    ∧ (∀ x, (stdinLogin tools r u p).2 = .ok x →
        (stdinLogin tools r u p).1.map LoginCall.registry = [r]) := by
  unfold stdinLogin
  simp only
  split
  · split
    · simp
    · split
      · simp
      · split <;> simp
  · split <;> simp

theorem loginOnce_spec (tools : LoginTools) (L : List String) (r u p : String) :
    (∀ L', (loginOnce tools L r u p).2 = .ok L' →
      (r ∉ L ∧ (loginOnce tools L r u p).1.map LoginCall.registry = [r] ∧ L' = L ++ [r])
      ∨ (r ∈ L ∧ (loginOnce tools L r u p).1 = [] ∧ L' = L))
    ∧ ((loginOnce tools L r u p).1 = []
        ∨ (r ∉ L ∧ (loginOnce tools L r u p).1.map LoginCall.registry = [r])) := by
  unfold loginOnce
  by_cases h : r ∈ L
  · have hc : checkList L r = true := (checkList_iff L r).mpr h
    simp [hc, h]
  · have hc : checkList L r = false := by
      cases hcl : checkList L r with
      | false => rfl
      | true => exact absurd ((checkList_iff L r).mp hcl) h
    simp only [hc, Bool.not_false, if_true]
    have hs := stdinLogin_calls tools r u p
    rcases hres : stdinLogin tools r u p with ⟨calls, res⟩
    rw [hres] at hs
    cases res with
    | ok x =>
      cases x
      have := hs.2 () rfl
      simp only at this ⊢
      simp [h, this]
    | error e =>
      simp only at hs ⊢
      refine ⟨by simp, ?_⟩
      rcases hs.1 with h1 | h1
      · exact Or.inl h1
      · exact Or.inr ⟨h, h1⟩

theorem recognized_empty : recognized "" = false := by decide

theorem registryStep_spec (env : LoginEnv) (tools : LoginTools) (L : List String) (image : Image) :
    (∀ L', (registryStep env tools L image).2 = .ok L' →
      (recognized image.Registry = true ∧ image.Registry ∉ L
        ∧ (registryStep env tools L image).1.map LoginCall.registry = [image.Registry]
        ∧ L' = L ++ [image.Registry])
      ∨ (recognized image.Registry = true ∧ image.Registry ∈ L
        ∧ (registryStep env tools L image).1 = [] ∧ L' = L)
      ∨ (recognized image.Registry = false
        ∧ (registryStep env tools L image).1 = [] ∧ L' = L))
    ∧ ((registryStep env tools L image).1 = []
        ∨ (image.Registry ∉ L
          ∧ (registryStep env tools L image).1.map LoginCall.registry = [image.Registry])) := by
  unfold registryStep
  simp only
  by_cases h1 : image.Registry = "quay.io"
  · have hr : recognized image.Registry = true := by simp [recognized, h1]
    simp only [h1, if_true]
    have := loginOnce_spec tools L "quay.io" env.QUAY_USERNAME env.QUAY_PASSWORD
    rw [h1] at hr
    refine ⟨fun L' hL' => ?_, this.2⟩
    rcases this.1 L' hL' with ⟨a, b, c⟩ | ⟨a, b, c⟩
    · exact Or.inl ⟨hr, a, b, c⟩
    · exact Or.inr (Or.inl ⟨hr, a, b, c⟩)
  · simp only [h1, if_false]
    by_cases h2 : stringsContains image.Registry "gcr.io" = true
    · have hr : recognized image.Registry = true := by simp [recognized, h2]
      simp only [h2, if_true]
      have := loginOnce_spec tools L image.Registry "_json_key" env.GCR_JSON_KEY
      refine ⟨fun L' hL' => ?_, this.2⟩
      rcases this.1 L' hL' with ⟨a, b, c⟩ | ⟨a, b, c⟩
      · exact Or.inl ⟨hr, a, b, c⟩
      · exact Or.inr (Or.inl ⟨hr, a, b, c⟩)
    · simp only [h2, if_false]
      by_cases h3 : stringsContains image.Registry ".ecr." = true
      · have hr : recognized image.Registry = true := by simp [recognized, h3]
        simp only [h3, if_true]
        have := loginOnce_spec tools L image.Registry "" ""
        refine ⟨fun L' hL' => ?_, this.2⟩
        rcases this.1 L' hL' with ⟨a, b, c⟩ | ⟨a, b, c⟩
        · exact Or.inl ⟨hr, a, b, c⟩
        · exact Or.inr (Or.inl ⟨hr, a, b, c⟩)
      · simp only [h3, if_false]
        have hr : recognized image.Registry = false := by
          simp [recognized, h1, h2, h3]
        by_cases h4 : image.Registry = ""
        · simp [h4, recognized_empty]
        · simp [h4]

theorem registryLoginLoop_spec (env : LoginEnv) (tools : LoginTools) (L : List String)
    (images : List Image) :
    (∀ c ∈ (registryLoginLoop env tools L images).1, c.registry ∉ L)
    ∧ ((registryLoginLoop env tools L images).1.map LoginCall.registry).Nodup
    ∧ ((registryLoginLoop env tools L images).2 = .ok () →
        (registryLoginLoop env tools L images).1.map LoginCall.registry
          = uniqueLoop L [] ((images.map Image.Registry).filter recognized)) := by
  induction images generalizing L with
  | nil => simp [registryLoginLoop, uniqueLoop]
  | cons image rest ih =>
    have hstep := registryStep_spec env tools L image
    rw [registryLoginLoop]
    rcases hres : registryStep env tools L image with ⟨calls, res⟩
    rw [hres] at hstep
    simp only at hstep
    cases res with
    | error e =>
      simp only
      rcases hstep.2 with h0 | ⟨hnot, hmap⟩
      · subst h0; simp
      · refine ⟨?_, by rw [hmap]; simp, by simp⟩
        intro c hc
        have : c.registry ∈ calls.map LoginCall.registry := List.mem_map_of_mem _ hc
        rw [hmap] at this
        simp only [List.mem_singleton] at this
        rw [this]; exact hnot
    | ok L' =>
      simp only
      obtain ⟨iha, ihb, ihc⟩ := ih L'
      rcases hstep.1 L' rfl with ⟨hr, hnot, hmap, hL⟩ | ⟨hr, hin, hcalls, hL⟩ | ⟨hr, hcalls, hL⟩
      · subst hL
        refine ⟨?_, ?_, ?_⟩
        · intro c hc
          rcases List.mem_append.mp hc with h1 | h1
          · have : c.registry ∈ calls.map LoginCall.registry := List.mem_map_of_mem _ h1
            rw [hmap] at this
            simp only [List.mem_singleton] at this
            rw [this]; exact hnot
          · intro hcL
            exact iha c h1 (List.mem_append_left _ hcL)
        · rw [List.map_append, hmap]
          simp only [List.singleton_append]
          refine List.nodup_cons.mpr ⟨?_, ihb⟩
          intro hmem
          obtain ⟨c, hc, hcr⟩ := List.mem_map.mp hmem
          exact iha c hc (by rw [hcr]; simp)
        · intro hok
          rw [List.map_append, hmap, ihc hok]
          simp only [List.map_cons, List.filter_cons, hr, if_true, List.singleton_append]
          rw [uniqueLoop_cons]
          simp only [hnot, if_false]
          congr 1
          apply uniqueLoop_congr
          intro x; simp [or_comm]
      · subst hL hcalls
        simp only [List.nil_append]
        refine ⟨iha, ihb, ?_⟩
        intro hok
        rw [ihc hok]
        simp only [List.map_cons, List.filter_cons, hr, if_true]
        rw [uniqueLoop_cons]
        simp [hin]
      · subst hL hcalls
        simp only [List.nil_append]
        refine ⟨iha, ihb, ?_⟩
        intro hok
        rw [ihc hok]
        simp [List.filter_cons, hr]

/-- C7: the sequence of `docker login` invocations issued by `registryLogin` never names the
same registry host twice, also in a run that aborts; when `registryLogin` does not abort, the
hosts logged in to are exactly the distinct recognized registry hosts of the images, each
once, in the order of their first appearance (a recognized host is never empty). -/
theorem registryLogin_once (env : LoginEnv) (tools : LoginTools) (images : List Image) :
    ((registryLogin env tools images).1.map LoginCall.registry).Nodup
    ∧ ((registryLogin env tools images).2 = .ok () →
        (registryLogin env tools images).1.map LoginCall.registry
          = unique ((images.map Image.Registry).filter recognized))
    ∧ recognized "" = false := by
  have h := registryLoginLoop_spec env tools [] images
  exact ⟨h.2.1, h.2.2, recognized_empty⟩

/-- C7 instance: quay.io twice, the default registry, a gcr.io host and an ECR host give three
logins in order of first appearance. -/
theorem registryLogin_once_sample :
    (registryLogin sampleEnv sampleTools
        [imageAt "quay.io", imageAt "", imageAt "k8s.gcr.io", imageAt "quay.io",
          imageAt "123.dkr.ecr.us-east-1.amazonaws.com"]).2 = .ok ()
    ∧ (registryLogin sampleEnv sampleTools
        [imageAt "quay.io", imageAt "", imageAt "k8s.gcr.io", imageAt "quay.io",
          imageAt "123.dkr.ecr.us-east-1.amazonaws.com"]).1.map LoginCall.registry
        = ["quay.io", "k8s.gcr.io", "123.dkr.ecr.us-east-1.amazonaws.com"] :=
  ⟨by decide,
    ((registryLogin_once sampleEnv sampleTools
      [imageAt "quay.io", imageAt "", imageAt "k8s.gcr.io", imageAt "quay.io",
        imageAt "123.dkr.ecr.us-east-1.amazonaws.com"]).2.1 (by decide)).trans (by decide)⟩

/-- C6 failing input: the host `secret-gcr.io` is recognized (it contains `gcr.io`) and every
login command succeeds, yet `registryLogin` ends in a run-time panic: `stdinLogin` takes the
ECR branch on the substring `ecr` and indexes `registryWords[len(registryWords)-3]` on a
two-word host name. -/
theorem registryLogin_recognized_panics :
    recognized "secret-gcr.io" = true
    ∧ (∀ call, sampleTools.dockerLogin call = true)
    ∧ registryLogin sampleEnv sampleTools [imageAt "secret-gcr.io"]
        = ([], .error (.panic "index out of range")) :=
  ⟨by decide, fun _ => rfl, by decide⟩

/-- C8 failing input: the host `secret.gcr.io` is classified as gcr.io (it contains `gcr.io`,
is not `quay.io` and does not contain `.ecr.`), yet `docker login` is invoked with username
`AWS` and the token of `aws ecr get-login-password`, not with `_json_key` and GCR_JSON_KEY. -/
theorem registryLogin_gcr_uses_aws :
    stringsContains "secret.gcr.io" "gcr.io" = true
    ∧ stringsContains "secret.gcr.io" ".ecr." = false
    ∧ registryLogin sampleEnv sampleTools [imageAt "secret.gcr.io"]
        = ([⟨"secret.gcr.io", "AWS", "token-secret"⟩], .ok ()) :=
  ⟨by decide, by decide, by decide⟩

/-! ## Properties of updateCharts -/

theorem updateLoop_spec (lib : VersionLib) (helm : HelmTools)
    (hlaw : ∀ s v, lib.NewVersion s = some v → lib.Original v = s)
    (k : Nat) (charts : List Chart) (st : UpdateState)
    (hrun : ∀ j c, charts[j]? = some c →
      helm.run (k + j) (repoAddCommand c) = true ∧ helm.run (k + j) (repoUpdateCommand c) = true
      ∧ ∃ r rs, helm.search (k + j) (searchCommand c) = some (r :: rs)
        ∧ (lib.NewVersion c.Version).isSome = true ∧ (lib.NewVersion r.Version).isSome = true) :
    updateLoop lib helm k charts st = .ok
      ⟨st.charts ++ (charts.enumFrom k).map
          (fun p => if isNewer lib helm p.1 p.2 then bumped helm p.1 p.2 else p.2),
       st.updatedCharts ++ (charts.enumFrom k).filterMap
          (fun p => if isNewer lib helm p.1 p.2 then some (bumped helm p.1 p.2) else none),
       st.updates || (charts.enumFrom k).any (fun p => isNewer lib helm p.1 p.2)⟩ := by
  induction charts generalizing k st with
  | nil => simp [updateLoop]
  | cons chart rest ih =>
    obtain ⟨h1, h2, r, rs, h3, h4, h5⟩ := hrun 0 chart (by simp)
    simp only [Nat.add_zero] at h1 h2 h3
    obtain ⟨cur, hcur⟩ := Option.isSome_iff_exists.mp h4
    obtain ⟨lat, hlat⟩ := Option.isSome_iff_exists.mp h5
    have hrest : ∀ j c, rest[j]? = some c →
        helm.run (k + 1 + j) (repoAddCommand c) = true
        ∧ helm.run (k + 1 + j) (repoUpdateCommand c) = true
        ∧ ∃ r rs, helm.search (k + 1 + j) (searchCommand c) = some (r :: rs)
          ∧ (lib.NewVersion c.Version).isSome = true ∧ (lib.NewVersion r.Version).isSome = true := by
      intro j c hj
      have := hrun (j + 1) c (by simpa using hj)
      rwa [show k + (j + 1) = k + 1 + j by omega] at this
    have hlatest : latestOf helm k chart = r.Version := by simp [latestOf, h3]
    have hnew : isNewer lib helm k chart = lib.LessThan cur lat := by
      simp [isNewer, hlatest, hcur, hlat]
    rw [updateLoop]
    simp only [h1, h2, h3, hcur, hlat, Bool.not_true, Bool.false_eq_true, if_false]
    by_cases hlt : lib.LessThan cur lat = true
    · simp only [hlt, if_true]
      rw [ih (k + 1) _ hrest]
      simp [List.enumFrom_cons, hnew, hlt, bumped, hlatest, hlaw _ _ hcur, hlaw _ _ hlat]
    · simp only [hlt, Bool.false_eq_true, if_false]
      rw [ih (k + 1) _ hrest]
      simp [List.enumFrom_cons, hnew, hlt]

/-- C1: for a chart list whose helm commands succeed, where every chart has a non-empty list
of published versions and both its current and its latest version parse, with at least one
newer version and NO_WRITE unset, `updateCharts` writes the chart list in which an entry has
its version replaced by the latest version string exactly when its current version is
strictly less than the latest, every other entry being written unchanged, and returns, in
input order, exactly the replaced entries with OldVersion set to their previous version. -/
theorem updateCharts_spec (lib : VersionLib) (helm : HelmTools) (noWrite : String)
    (charts : List Chart)
    (hlaw : ∀ s v, lib.NewVersion s = some v → lib.Original v = s)
    (hrun : ∀ i c, charts[i]? = some c →
      helm.run i (repoAddCommand c) = true ∧ helm.run i (repoUpdateCommand c) = true
      ∧ ∃ r rs, helm.search i (searchCommand c) = some (r :: rs)
        ∧ (lib.NewVersion c.Version).isSome = true ∧ (lib.NewVersion r.Version).isSome = true)
    (hupd : ∃ i c, charts[i]? = some c ∧ isNewer lib helm i c = true)
    (hnw : noWrite = "")
    (hwrite : ∀ records, helm.writeFile records = true) :
    updateCharts lib helm noWrite charts = .ok
      (charts.enum.map (fun p =>
          if isNewer lib helm p.1 p.2 then
            ⟨p.2.Name, p.2.Repo, p.2.Url, latestOf helm p.1 p.2⟩
          else p.2.toRecord),
       charts.enum.filterMap (fun p =>
          if isNewer lib helm p.1 p.2 then
            some { p.2 with OldVersion := p.2.Version, Version := latestOf helm p.1 p.2 }
          else none)) := by
  have hloop := updateLoop_spec lib helm hlaw 0 charts ⟨[], [], false⟩
    (by simpa using hrun)
  have hany : (charts.enumFrom 0).any (fun p => isNewer lib helm p.1 p.2) = true := by
    obtain ⟨i, c, hi, hn⟩ := hupd
    rw [List.any_eq_true]
    refine ⟨(i, c), ?_, hn⟩
    rw [← List.enum, List.mk_mem_enum_iff_getElem?]
    exact hi
  unfold updateCharts
  rw [hloop]
  simp only [hany, hnw, hwrite, List.nil_append, Bool.false_or, Bool.not_true,
    Bool.false_eq_true, if_false, String.length, List.length_nil, gt_iff_lt, lt_self_iff_false,
    if_true, List.map_map, List.enum]
  congr 2
  apply List.map_congr_left
  intro p _
  simp only [Function.comp]
  split <;> simp [bumped, Chart.toRecord]

theorem dottedLib_original (s : String) (v : dottedLib.Version)
    (h : dottedLib.NewVersion s = some v) : dottedLib.Original v = s := by
  simp only [dottedLib, parseDotted, Option.map_eq_some'] at h ⊢
  obtain ⟨segments, _, hv⟩ := h
  rw [← hv]

/-- C1 instance: the chart foo at 1.2.0 with upstream latest 1.3.0 is written with version
1.3.0 and returned with OldVersion 1.2.0. -/
theorem updateCharts_spec_foo :
    updateCharts dottedLib sampleHelm "" [fooChart]
      = .ok ([⟨"foo", "foo-repo", "https://x", "1.3.0"⟩],
          [⟨"foo", "foo-repo", "https://x", "1.3.0", "1.2.0"⟩]) :=
  (updateCharts_spec dottedLib sampleHelm "" [fooChart] dottedLib_original
    (by
      intro i c h
      cases i with
      | zero =>
        simp only [List.getElem?_cons_zero, Option.some.injEq] at h
        subst h
        exact ⟨rfl, rfl, ⟨"1.3.0"⟩, [⟨"1.2.0"⟩], rfl, by decide, by decide⟩
      | succ n => simp at h)
    ⟨0, fooChart, rfl, by decide⟩ rfl (fun _ => rfl)).trans (by decide)

/-! ## Properties of PullRequest -/

theorem foldl_append_string (l : List String) (acc : String) :
    l.foldl (fun r s => r ++ s) acc = acc ++ l.foldl (fun r s => r ++ s) "" := by
  induction l generalizing acc with
  | nil => simp
  | cons x xs ih =>
    rw [List.foldl_cons, ih, List.foldl_cons, ih ("" ++ x)]
    simp [String.append_assoc]

theorem string_join_cons (x : String) (xs : List String) :
    String.join (x :: xs) = x ++ String.join xs := by
  unfold String.join
  rw [List.foldl_cons, foldl_append_string]
  simp

theorem pullRequest_fold_body (charts : List Chart) (st : PullRequestText) :
    (charts.foldl pullRequestStep st).body = st.body ++ String.join (charts.map bumpLine) := by
  induction charts generalizing st with
  | nil => simp [String.join]
  | cons c cs ih =>
    rw [List.foldl_cons, ih, List.map_cons, string_join_cons]
    simp [pullRequestStep, bumpLine, String.append_assoc]

theorem pullRequest_fold_title (cs : List Chart) (st : PullRequestText) (pre a : String)
    (h : st.title = pre ++ a ++ ", ") :
    (cs.foldl pullRequestStep st).title
      = pre ++ String.intercalate.go a ", " (cs.map bumpEntry) ++ ", " := by
  induction cs generalizing st a with
  | nil => simpa [String.intercalate.go] using h
  | cons c cs ih =>
    rw [List.foldl_cons, ih (pullRequestStep st c) (a ++ ", " ++ bumpEntry c)]
    · simp [String.intercalate.go]
    · simp [pullRequestStep, h, bumpEntry, String.append_assoc]

theorem sliceTo_append (a b : String) (n : Nat) (h : n = b.length) :
    sliceTo (a ++ b) ((a ++ b).length - n) = a := by
  subst h
  apply String.ext
  show (a ++ b).data.take ((a ++ b).length - b.length) = a.data
  rw [String.data_append, String.length_append, Nat.add_sub_cancel]
  exact List.take_left' rfl

/-- C9: for a non-empty list of changed charts the pull-request title is `Bump ` followed by
the entries `<name> from <oldVersion> to <version>` in list order joined by `, ` with no
trailing separator, and the body is the header line, one `Bumps ...` line per chart in order,
and the closing note on image digests exactly when changedImages is true. -/
theorem pullRequestText_spec (charts : List Chart) (changedImages : Bool) (h : charts ≠ []) :
    (pullRequestText charts changedImages).title
      = "Bump " ++ ", ".intercalate (charts.map bumpEntry)
    ∧ (pullRequestText charts changedImages).body
      = "## Terraform Helm Updater\n" ++ String.join (charts.map bumpLine)
          ++ (if changedImages then "\n---\nAlso updated list of image digests." else "") := by
  constructor
  · cases charts with
    | nil => exact absurd rfl h
    | cons c cs =>
      have := pullRequest_fold_title cs (pullRequestStep ⟨"Bump ", "## Terraform Helm Updater\n"⟩ c)
        "Bump " (bumpEntry c) (by simp [pullRequestStep, bumpEntry, String.append_assoc])
      simp only [pullRequestText, List.foldl_cons, this, List.map_cons, String.intercalate]
      exact sliceTo_append _ _ 2 rfl
  · simp only [pullRequestText, pullRequest_fold_body]
    cases changedImages <;> simp

/-- C9 instance: two changed charts with changed images. -/
theorem pullRequestText_spec_sample :
    sampleBumps ≠ []
    ∧ (pullRequestText sampleBumps true).title
        = "Bump foo from 1.2.0 to 1.3.0, bar from 1.0 to 2.0"
    ∧ (pullRequestText sampleBumps true).body
        = "## Terraform Helm Updater\nBumps foo Helm Chart version from 1.2.0 to 1.3.0.\n"
          ++ "Bumps bar Helm Chart version from 1.0 to 2.0.\n"
          ++ "\n---\nAlso updated list of image digests." :=
  ⟨by decide,
    (pullRequestText_spec sampleBumps true (by decide)).1.trans (by decide),
    (pullRequestText_spec sampleBumps true (by decide)).2.trans (by decide)⟩

/-! ## Properties of Command -/

theorem quoteSplit_plain (r : Char) (h : r ≠ dquote) :
    quoteSplit false r = (false, decide (r = ' ')) := by
  simp [quoteSplit, h]

theorem quoteSplit_inside (r : Char) (h : r ≠ dquote) : quoteSplit true r = (true, false) := by
  simp [quoteSplit, h]

theorem modifyHead_nil_append (l : List (List Char)) :
    l.modifyHead (fun x => ([] : List Char) ++ x) = l := by
  cases l <;> simp [List.modifyHead]

theorem fieldsFunc_plain (cs : List Char) (field : Option (List Char))
    (hq : dquote ∉ cs) (hf : field ≠ some []) :
    fieldsFunc false field cs
      = ((cs.splitOnP (· == ' ')).modifyHead (field.getD [] ++ ·)).filter (· ≠ []) := by
  induction cs generalizing field with
  | nil =>
    cases field with
    | none => simp [fieldsFunc]
    | some w =>
      have : w ≠ [] := fun h => hf (by rw [h])
      simp [fieldsFunc, this]
  | cons r rest ih =>
    have hr : r ≠ dquote := fun h => hq (by simp [h])
    have hrest : dquote ∉ rest := fun h => hq (List.mem_cons_of_mem _ h)
    simp only [fieldsFunc]
    rw [quoteSplit_plain r hr, List.splitOnP_cons]
    by_cases hsp : r = ' '
    · subst hsp
      simp only [decide_True, if_true, beq_self_eq_true]
      have hnone := ih none hrest (by simp)
      simp only [Option.getD_none, modifyHead_nil_append] at hnone
      cases field with
      | none =>
        rw [hnone]
        simp [List.modifyHead]
      | some w =>
        have : w ≠ [] := fun h => hf (by rw [h])
        rw [hnone]
        simp [List.modifyHead, this]
    · have hbeq : (r == ' ') = false := by simpa using hsp
      simp only [hsp, decide_False, Bool.false_eq_true, if_false, hbeq]
      rw [ih _ hrest (by simp), List.modifyHead_modifyHead]
      congr 2
      funext l
      simp

theorem fieldsFunc_cons (quoted : Bool) (field : Option (List Char)) (r : Char)
    (rest : List Char) :
    fieldsFunc quoted field (r :: rest)
      = if (quoteSplit quoted r).2 then
          match field with
          | some w => w :: fieldsFunc (quoteSplit quoted r).1 none rest
          | none => fieldsFunc (quoteSplit quoted r).1 none rest
        else fieldsFunc (quoteSplit quoted r).1 (some (field.getD [] ++ [r])) rest := by
  simp only [fieldsFunc]

theorem fieldsFunc_nil (quoted : Bool) (w : List Char) :
    fieldsFunc quoted (some w) [] = [w] := by
  simp only [fieldsFunc]

theorem fieldsFunc_word (w rest : List Char) (field : Option (List Char))
    (hs : ' ' ∉ w) (hq : dquote ∉ w) (hw : w ≠ []) :
    fieldsFunc false field (w ++ rest) = fieldsFunc false (some (field.getD [] ++ w)) rest := by
  induction w generalizing field with
  | nil => exact absurd rfl hw
  | cons c w ih =>
    have hc1 : c ≠ ' ' := fun h => hs (by simp [h])
    have hc2 : c ≠ dquote := fun h => hq (by simp [h])
    rw [List.cons_append, fieldsFunc_cons, quoteSplit_plain c hc2]
    simp only [hc1, decide_False, Bool.false_eq_true, if_false]
    by_cases hnil : w = []
    · subst hnil; simp
    · rw [ih _ (fun h => hs (List.mem_cons_of_mem _ h)) (fun h => hq (List.mem_cons_of_mem _ h))
        hnil]
      simp

theorem fieldsFunc_words (ws : List (List Char)) (tail : List Char)
    (h : ∀ w ∈ ws, w ≠ [] ∧ ' ' ∉ w ∧ dquote ∉ w) :
    fieldsFunc false none ((ws.map (· ++ [' '])).flatten ++ tail)
      = ws ++ fieldsFunc false none tail := by
  induction ws with
  | nil => simp
  | cons w ws ih =>
    obtain ⟨h1, h2, h3⟩ := h w (List.mem_cons_self _ _)
    simp only [List.map_cons, List.flatten_cons, List.append_assoc]
    rw [fieldsFunc_word w _ none h2 h3 h1]
    have hsp : quoteSplit false ' ' = (false, true) := by decide
    rw [List.singleton_append, fieldsFunc_cons, hsp]
    simp only [if_true, List.cons_append, Option.getD_none, List.nil_append]
    rw [ih (fun w' hw' => h w' (List.mem_cons_of_mem _ hw'))]

theorem fieldsFunc_inside (m rest acc : List Char) (hq : dquote ∉ m) :
    fieldsFunc true (some acc) (m ++ rest) = fieldsFunc true (some (acc ++ m)) rest := by
  induction m generalizing acc with
  | nil => simp
  | cons c m ih =>
    have hc : c ≠ dquote := fun h => hq (by simp [h])
    rw [List.cons_append, fieldsFunc_cons, quoteSplit_inside c hc]
    simp only [Bool.false_eq_true, if_false, Option.getD_some]
    rw [ih _ (fun h => hq (List.mem_cons_of_mem _ h))]
    simp

theorem fieldsFunc_quoted (m : List Char) (hq : dquote ∉ m) :
    fieldsFunc false none (dquote :: (m ++ [dquote])) = [dquote :: (m ++ [dquote])] := by
  have h1 : quoteSplit false dquote = (true, false) := by decide
  have h2 : quoteSplit true dquote = (false, false) := by decide
  rw [fieldsFunc_cons, h1]
  simp only [Bool.false_eq_true, if_false, Option.getD_none, List.nil_append]
  rw [fieldsFunc_inside m _ _ hq, fieldsFunc_cons, h2]
  simp only [Bool.false_eq_true, if_false, Option.getD_some]
  rw [fieldsFunc_nil]
  simp

theorem dropWhile_none (p : Char → Bool) (l : List Char) (h : ∀ x ∈ l, p x = false) :
    l.dropWhile p = l := by
  cases l with
  | nil => rfl
  | cons c l => simp [List.dropWhile, h c (List.mem_cons_self _ _)]

theorem trimQuotes_clean (l : List Char) (hq : dquote ∉ l) : trimQuotes l = l := by
  unfold trimQuotes
  have h1 : ∀ x ∈ l, decide (x = dquote) = false := by
    intro x hx; simp only [decide_eq_false_iff_not]; rintro rfl; exact hq hx
  rw [dropWhile_none _ l h1, dropWhile_none _ l.reverse (by simpa using h1)]
  simp

theorem trimQuotes_quoted (m : List Char) (hq : dquote ∉ m) :
    trimQuotes (dquote :: (m ++ [dquote])) = m := by
  have h1 : ∀ x ∈ m, decide (x = dquote) = false := by
    intro x hx; simp only [decide_eq_false_iff_not]; rintro rfl; exact hq hx
  unfold trimQuotes
  rw [List.dropWhile_cons_of_pos (by simp)]
  cases m with
  | nil => simp [List.dropWhile]
  | cons c m =>
    have hc : decide (c = dquote) = false := h1 c (List.mem_cons_self _ _)
    rw [List.cons_append, List.dropWhile_cons_of_neg (by simp [hc]), ← List.cons_append,
      List.reverse_append, List.reverse_singleton, List.singleton_append,
      List.dropWhile_cons_of_pos (by simp),
      dropWhile_none _ _ (fun x hx => h1 x (List.mem_reverse.mp hx)), List.reverse_reverse]

theorem intercalate_go_data (acc sep : String) (l : List String) :
    (String.intercalate.go acc sep l).data
      = acc.data ++ (l.map (fun x => sep.data ++ x.data)).flatten := by
  induction l generalizing acc with
  | nil => simp [String.intercalate.go]
  | cons x xs ih => simp [String.intercalate.go, ih, String.data_append]

theorem join_sep_shift (w : List Char) (ws : List (List Char)) (c : Char) :
    w ++ (ws.map (fun x => [c] ++ x)).flatten ++ [c] = ((w :: ws).map (· ++ [c])).flatten := by
  induction ws generalizing w with
  | nil => simp
  | cons x xs ih =>
    have := ih x
    simp only [List.map_cons, List.flatten_cons, List.append_assoc] at this ⊢
    rw [this]

theorem mem_of_mem_splitOnP (p : Char → Bool) (l : List Char) :
    ∀ x ∈ l.splitOnP p, ∀ c ∈ x, c ∈ l := by
  induction l with
  | nil =>
    intro x hx c hc
    simp only [List.splitOnP_nil, List.mem_singleton] at hx
    subst hx; simp at hc
  | cons a l ih =>
    intro x hx c hc
    rw [List.splitOnP_cons] at hx
    by_cases hp : p a = true
    · simp only [hp, if_true, List.mem_cons] at hx
      rcases hx with rfl | hx
      · simp at hc
      · exact List.mem_cons_of_mem _ (ih x hx c hc)
    · simp only [hp, Bool.false_eq_true, if_false] at hx
      cases hsplit : l.splitOnP p with
      | nil => exact absurd hsplit (List.splitOnP_ne_nil _ _)
      | cons hd tl =>
        rw [hsplit] at hx ih
        simp only [List.modifyHead, List.mem_cons] at hx
        rcases hx with rfl | hx
        · rcases List.mem_cons.mp hc with rfl | hc'
          · exact List.mem_cons_self _ _
          · exact List.mem_cons_of_mem _ (ih hd (List.mem_cons_self _ _) c hc')
        · exact List.mem_cons_of_mem _ (ih x (List.mem_cons_of_mem _ hx) c hc)

/-- C10: the tokenisation of `Command` keeps a double-quoted argument as one argument: words
w1..wn (each non-empty, free of spaces and double quotes) followed by a message m without
double quotes wrapped in double quotes are split into exactly w1, ..., wn, m; and a command
string without double quotes is split into its maximal runs of non-space characters. -/
theorem commandArgs_spec :
    (∀ (ws : List String) (m : String), ws ≠ [] →
      (∀ w ∈ ws, w ≠ "" ∧ ' ' ∉ w.toList ∧ dquote ∉ w.toList) → dquote ∉ m.toList →
      commandArgs (" ".intercalate ws ++ " " ++ String.singleton dquote ++ m
          ++ String.singleton dquote) = ws ++ [m])
    ∧ (∀ s : String, dquote ∉ s.toList → commandArgs s = nonSpaceRuns s) := by
  constructor
  · intro ws m hne hws hm
    cases ws with
    | nil => exact absurd rfl hne
    | cons w ws =>
      have hdata : (" ".intercalate (w :: ws) ++ " " ++ String.singleton dquote ++ m
          ++ String.singleton dquote).toList
          = (((w :: ws).map String.toList).map (· ++ [' '])).flatten
              ++ (dquote :: (m.toList ++ [dquote])) := by
        have htl : ∀ s : String, s.toList = s.data := fun _ => rfl
        have hsg : (String.singleton dquote).data = [dquote] := rfl
        have hsp : (" " : String).data = [' '] := rfl
        have := join_sep_shift w.data (ws.map String.data) ' '
        simp only [List.map_cons, List.map_map, Function.comp_def] at this ⊢
        simp only [htl, String.intercalate, String.data_append, intercalate_go_data, hsg, hsp]
        rw [← this]
        simp
      have hclean : ∀ x ∈ (w :: ws).map String.toList, x ≠ [] ∧ ' ' ∉ x ∧ dquote ∉ x := by
        intro x hx
        obtain ⟨y, hy, rfl⟩ := List.mem_map.mp hx
        obtain ⟨h1, h2, h3⟩ := hws y hy
        refine ⟨fun h => h1 (String.ext h), h2, h3⟩
      unfold commandArgs
      rw [hdata, fieldsFunc_words _ _ hclean, fieldsFunc_quoted _ hm]
      rw [List.map_append, List.map_map]
      congr 1
      · have : ∀ y ∈ (w :: ws), (fun s => String.mk (trimQuotes s)) (String.toList y) = y := by
          intro y hy
          simp only [trimQuotes_clean _ (hws y hy).2.2]
          rfl
        calc List.map ((fun s => String.mk (trimQuotes s)) ∘ String.toList) (w :: ws)
            = List.map id (w :: ws) := List.map_congr_left (fun y hy => this y hy)
          _ = w :: ws := List.map_id _
      · simp only [List.map_cons, List.map_nil, trimQuotes_quoted _ hm]
        rfl
  · intro s hs
    unfold commandArgs nonSpaceRuns
    rw [fieldsFunc_plain _ none hs (by simp)]
    simp only [Option.getD_none, modifyHead_nil_append, List.splitOn]
    rw [List.map_congr_left]
    intro x hx
    have hx' : dquote ∉ x := fun hc =>
      hs (mem_of_mem_splitOnP _ _ x (List.mem_filter.mp hx).1 dquote hc)
    rw [trimQuotes_clean x hx']

/-- C10 instance: the commit command of `commitAndPush`. -/
theorem commandArgs_spec_commit :
    commandArgs (" ".intercalate ["git", "commit", "-m"] ++ " " ++ String.singleton dquote
        ++ "Updated chart versions" ++ String.singleton dquote)
      = ["git", "commit", "-m", "Updated chart versions"]
    ∧ commandArgs "git status --porcelain" = nonSpaceRuns "git status --porcelain" :=
  ⟨commandArgs_spec.1 ["git", "commit", "-m"] "Updated chart versions" (by decide) (by decide)
      (by decide),
    commandArgs_spec.2 "git status --porcelain" (by decide)⟩

/-! ## Properties of the image regular expression -/

theorem iterate_of_step_nil (step : MatchState → List MatchState) (greedy : Bool) (n : Nat)
    (s : MatchState) (h : step s = []) : iterate step greedy n s = [s] := by
  cases n with
  | zero => rfl
  | succ n => cases greedy <;> simp [iterate, h]

theorem iterate_lazy_head (step : MatchState → List MatchState) (n : Nat) (s : MatchState) :
    ∃ L, iterate step false n s = s :: L := by
  cases n with
  | zero => exact ⟨[], rfl⟩
  | succ n =>
    exact ⟨((step s).filter (fun t => t.rest.length < s.rest.length)).flatMap
      (iterate step false n), by simp only [iterate, Bool.false_eq_true, if_false]⟩

theorem run_cls_cons (neg : Bool) (ranges : List (Char × Char)) (pos : Nat) (c : Char)
    (cs : List Char) (cap : Option (Nat × Nat)) :
    run (.cls neg ranges) ⟨pos, c :: cs, cap⟩
      = if inClass neg ranges c then [⟨pos + 1, cs, cap⟩] else [] := by
  simp only [run]

theorem run_cls_nil (neg : Bool) (ranges : List (Char × Char)) (pos : Nat)
    (cap : Option (Nat × Nat)) :
    run (.cls neg ranges) ⟨pos, [], cap⟩ = [] := by
  simp only [run]

theorem iterate_cls_lazy (neg : Bool) (ranges : List (Char × Char)) (rest : List Char)
    (n pos : Nat) (cap : Option (Nat × Nat)) (h : rest.length ≤ n) :
    iterate (run (.cls neg ranges)) false n ⟨pos, rest, cap⟩
      = lazySpan (inClass neg ranges) pos cap rest := by
  induction rest generalizing n pos with
  | nil => rw [iterate_of_step_nil _ _ _ _ (run_cls_nil _ _ _ _)]; rfl
  | cons c cs ih =>
    cases n with
    | zero => simp at h
    | succ n =>
      simp only [iterate, run_cls_cons, lazySpan, Bool.false_eq_true, if_false]
      by_cases hc : inClass neg ranges c = true
      · simp [hc, ih n (pos + 1) (by simpa using h)]
      · simp [hc]

theorem iterate_cls_greedy (neg : Bool) (ranges : List (Char × Char)) (rest : List Char)
    (n pos : Nat) (cap : Option (Nat × Nat)) (h : rest.length ≤ n) :
    iterate (run (.cls neg ranges)) true n ⟨pos, rest, cap⟩
      = greedySpan (inClass neg ranges) pos cap rest := by
  induction rest generalizing n pos with
  | nil => rw [iterate_of_step_nil _ _ _ _ (run_cls_nil _ _ _ _)]; rfl
  | cons c cs ih =>
    cases n with
    | zero => simp at h
    | succ n =>
      simp only [iterate, run_cls_cons, greedySpan, if_true]
      by_cases hc : inClass neg ranges c = true
      · simp [hc, ih n (pos + 1) (by simpa using h)]
      · simp [hc]

theorem run_star_cls (neg : Bool) (ranges : List (Char × Char)) (greedy : Bool)
    (s : MatchState) :
    run (.star (.cls neg ranges) greedy) s
      = if greedy then greedySpan (inClass neg ranges) s.pos s.cap s.rest
        else lazySpan (inClass neg ranges) s.pos s.cap s.rest := by
  cases greedy
  · simp only [run, Bool.false_eq_true, if_false]
    exact iterate_cls_lazy _ _ _ _ _ _ (le_refl _)
  · simp only [run, if_true]
    exact iterate_cls_greedy _ _ _ _ _ _ (le_refl _)

theorem run_plus_cls (ranges : List (Char × Char)) (pos : Nat) (c : Char) (cs : List Char)
    (cap : Option (Nat × Nat)) :
    run (.plus (.cls false ranges) true) ⟨pos, c :: cs, cap⟩
      = if inClass false ranges c then greedySpan (inClass false ranges) (pos + 1) cap cs
        else [] := by
  simp only [run]
  by_cases hc : inClass false ranges c = true
  · simp only [hc, if_true, List.flatMap_cons, List.flatMap_nil, List.append_nil]
    exact iterate_cls_greedy _ _ _ _ _ _ (le_refl _)
  · simp [hc]

theorem name_in_imageName (c : Char) (h : inClass false nameChars c = true) :
    inClass false imageNameRanges c = true := by
  simp [inClass, nameChars, imageNameRanges] at h ⊢
  omega

theorem name_not_space (c : Char) (h : inClass false nameChars c = true) :
    inClass false spaceRanges c = false := by
  simp [inClass, nameChars, spaceRanges] at h ⊢
  omega

theorem name_nonspace (c : Char) (h : inClass false nameChars c = true) :
    inClass true spaceRanges c = true := by
  have := name_not_space c h
  simp only [inClass, Bool.false_bne, Bool.true_bne, Bool.not_eq_true'] at this ⊢
  exact this

theorem name_not_colon (c : Char) (h : inClass false nameChars c = true) :
    inClass false [(':', ':')] c = false := by
  simp [inClass, nameChars] at h ⊢
  omega

theorem tag_in_imageName (c : Char) (h : inClass false tagChars c = true) :
    inClass false imageNameRanges c = true := by
  simp [inClass, tagChars, imageNameRanges] at h ⊢
  omega

theorem tag_in_imageTag (c : Char) (h : inClass false tagChars c = true) :
    inClass false imageTagRanges c = true := by
  simp [inClass, tagChars, imageTagRanges] at h ⊢
  omega

theorem tag_not_colon (c : Char) (h : inClass false tagChars c = true) :
    inClass false [(':', ':')] c = false := by
  simp [inClass, tagChars] at h ⊢
  omega

theorem run_cat (a b : Regex) (s : MatchState) :
    run (.cat a b) s = (run a s).flatMap (run b) := by
  simp only [run]

theorem run_group (a : Regex) (s : MatchState) :
    run (.group a) s = (run a s).map (fun t => { t with cap := some (s.pos, t.pos) }) := by
  simp only [run]

theorem run_plus (a : Regex) (greedy : Bool) (s : MatchState) :
    run (.plus a greedy) s
      = (run a s).flatMap (fun t => iterate (run a) greedy t.rest.length t) := by
  simp only [run]

theorem run_star (a : Regex) (greedy : Bool) (s : MatchState) :
    run (.star a greedy) s = iterate (run a) greedy s.rest.length s := by
  simp only [run]

theorem greedySpan_cons (p : Char → Bool) (pos : Nat) (cap : Option (Nat × Nat)) (c : Char)
    (cs : List Char) :
    greedySpan p pos cap (c :: cs)
      = (if p c then greedySpan p (pos + 1) cap cs else []) ++ [⟨pos, c :: cs, cap⟩] := rfl

theorem lazySpan_cons (p : Char → Bool) (pos : Nat) (cap : Option (Nat × Nat)) (c : Char)
    (cs : List Char) :
    lazySpan p pos cap (c :: cs)
      = ⟨pos, c :: cs, cap⟩ :: (if p c then lazySpan p (pos + 1) cap cs else []) := rfl

theorem greedy_colon_skip (ranges : List (Char × Char)) (xs r : List Char) (pos : Nat)
    (cap : Option (Nat × Nat))
    (hin : ∀ c ∈ xs, inClass false ranges c = true)
    (hcol : ∀ c ∈ xs, inClass false [(':', ':')] c = false) :
    (greedySpan (inClass false ranges) pos cap (xs ++ r)).flatMap (run colon)
      = (greedySpan (inClass false ranges) (pos + xs.length) cap r).flatMap (run colon) := by
  induction xs generalizing pos with
  | nil => simp
  | cons x xs ih =>
    have h1 := hin x (List.mem_cons_self _ _)
    have h2 := hcol x (List.mem_cons_self _ _)
    simp only [List.cons_append, greedySpan_cons, h1, if_true, List.flatMap_append,
      List.flatMap_cons, List.flatMap_nil, List.append_nil, colon, run_cls_cons, h2,
      Bool.false_eq_true, if_false]
    rw [← colon, ih (pos + 1) (fun c hc => hin c (List.mem_cons_of_mem _ hc))
      (fun c hc => hcol c (List.mem_cons_of_mem _ hc))]
    simp only [List.length_cons]
    rw [show pos + 1 + xs.length = pos + (xs.length + 1) by omega]

theorem greedySpan_head (p : Char → Bool) (xs r : List Char) (pos : Nat)
    (cap : Option (Nat × Nat)) (hin : ∀ c ∈ xs, p c = true)
    (hr : ∀ q, greedySpan p q cap r = [⟨q, r, cap⟩]) :
    ∃ L, greedySpan p pos cap (xs ++ r) = ⟨pos + xs.length, r, cap⟩ :: L := by
  induction xs generalizing pos with
  | nil => exact ⟨[], by simp [hr]⟩
  | cons x xs ih =>
    obtain ⟨L, hL⟩ := ih (pos + 1) (fun c hc => hin c (List.mem_cons_of_mem _ hc))
    refine ⟨L ++ [⟨pos, x :: (xs ++ r), cap⟩], ?_⟩
    simp only [List.cons_append, greedySpan_cons, hin x (List.mem_cons_self _ _), if_true, hL,
      List.length_cons]
    rw [show pos + 1 + xs.length = pos + (xs.length + 1) by omega]

theorem greedySpan_line_end (ranges : List (Char × Char)) (nl : List Char)
    (hnl : nl = [] ∨ nl = ['\n']) (hp : inClass false ranges '\n' = false)
    (cap : Option (Nat × Nat)) (q : Nat) :
    greedySpan (inClass false ranges) q cap nl = [⟨q, nl, cap⟩] := by
  rcases hnl with rfl | rfl
  · rfl
  · simp [greedySpan, hp]

theorem name_then_colon (x : Char) (xs Y nl : List Char) (pos : Nat) (cap : Option (Nat × Nat))
    (hX : ∀ c ∈ x :: xs, inClass false nameChars c = true)
    (hY : ∀ c ∈ Y, inClass false tagChars c = true)
    (hnl : nl = [] ∨ nl = ['\n']) :
    (run (.plus (.cls false imageNameRanges) true)
        ⟨pos, (x :: xs) ++ ':' :: (Y ++ nl), cap⟩).flatMap (run colon)
      = [⟨pos + (x :: xs).length + 1, Y ++ nl, cap⟩] := by
  have hx := name_in_imageName x (hX x (List.mem_cons_self _ _))
  have hcolon : inClass false imageNameRanges ':' = true := by decide
  have hline : inClass false imageNameRanges '\n' = false := by decide
  rw [List.cons_append, run_plus_cls]
  simp only [hx, if_true]
  rw [greedy_colon_skip _ xs _ _ _
    (fun c hc => name_in_imageName c (hX c (List.mem_cons_of_mem _ hc)))
    (fun c hc => name_not_colon c (hX c (List.mem_cons_of_mem _ hc)))]
  simp only [greedySpan_cons, hcolon, if_true, List.flatMap_append, List.flatMap_cons,
    List.flatMap_nil, List.append_nil]
  rw [greedy_colon_skip _ Y _ _ _ (fun c hc => tag_in_imageName c (hY c hc))
    (fun c hc => tag_not_colon c (hY c hc)),
    greedySpan_line_end _ nl hnl hline]
  have hstop : run colon ⟨pos + 1 + xs.length + 1 + Y.length, nl, cap⟩ = [] := by
    rcases hnl with rfl | rfl
    · exact run_cls_nil _ _ _ _
    · simp only [colon, run_cls_cons]
      rw [if_neg (by decide)]
  have hgo : run colon ⟨pos + 1 + xs.length, ':' :: (Y ++ nl), cap⟩
      = [⟨pos + 1 + xs.length + 1, Y ++ nl, cap⟩] := by
    simp only [colon, run_cls_cons]
    rw [if_pos (by decide)]
  simp only [List.flatMap_cons, List.flatMap_nil, List.append_nil, hstop, hgo, List.nil_append,
    List.length_cons]
  rw [show pos + 1 + xs.length + 1 = pos + (xs.length + 1) + 1 by omega]

theorem run_imageGroup_line_end (nl : List Char) (hnl : nl = [] ∨ nl = ['\n']) (pos : Nat)
    (cap : Option (Nat × Nat)) : run imageGroup ⟨pos, nl, cap⟩ = [] := by
  rcases hnl with rfl | rfl
  · simp [imageGroup, run_group, run_cat, run_plus, run_cls_nil]
  · have : inClass false imageNameRanges '\n' = false := by decide
    simp [imageGroup, run_group, run_cat, run_plus, run_cls_cons, this]

theorem run_imageGroup_image (x y : Char) (xs ys nl : List Char) (pos : Nat)
    (cap : Option (Nat × Nat))
    (hX : ∀ c ∈ x :: xs, inClass false nameChars c = true)
    (hY : ∀ c ∈ y :: ys, inClass false tagChars c = true)
    (hnl : nl = [] ∨ nl = ['\n']) :
    ∃ L, run imageGroup ⟨pos, (x :: xs) ++ ':' :: ((y :: ys) ++ nl), cap⟩
      = ⟨pos + (x :: xs).length + 1 + (y :: ys).length, nl,
          some (pos, pos + (x :: xs).length + 1 + (y :: ys).length)⟩ :: L := by
  have hline : inClass false imageTagRanges '\n' = false := by decide
  have hy := tag_in_imageTag y (hY y (List.mem_cons_self _ _))
  obtain ⟨L, hL⟩ := greedySpan_head (inClass false imageTagRanges) ys nl
    (pos + (x :: xs).length + 1 + 1) cap
    (fun c hc => tag_in_imageTag c (hY c (List.mem_cons_of_mem _ hc)))
    (greedySpan_line_end _ nl hnl hline cap)
  refine ⟨L.map (fun t => { t with cap := some (pos, t.pos) }), ?_⟩
  rw [imageGroup, run_group, run_cat]
  have hassoc : (run (.plus (.cls false imageNameRanges) true)
        ⟨pos, (x :: xs) ++ ':' :: ((y :: ys) ++ nl), cap⟩).flatMap
        (run (.cat colon (.plus (.cls false imageTagRanges) true)))
      = ((run (.plus (.cls false imageNameRanges) true)
        ⟨pos, (x :: xs) ++ ':' :: ((y :: ys) ++ nl), cap⟩).flatMap (run colon)).flatMap
        (run (.plus (.cls false imageTagRanges) true)) := by
    rw [List.flatMap_assoc]
    congr 1
  rw [hassoc, name_then_colon x xs (y :: ys) nl pos cap hX hY hnl]
  simp only [List.flatMap_cons, List.flatMap_nil, List.append_nil, List.cons_append]
  rw [run_plus_cls]
  simp only [List.length_cons] at hL ⊢
  simp only [hy, if_true, hL, List.map_cons]
  rw [show pos + (xs.length + 1) + 1 + 1 + ys.length
    = pos + (xs.length + 1) + 1 + (ys.length + 1) by omega]

theorem run_image_tail (x y : Char) (xs ys nl : List Char) (pos : Nat)
    (cap : Option (Nat × Nat))
    (hX : ∀ c ∈ x :: xs, inClass false nameChars c = true)
    (hY : ∀ c ∈ y :: ys, inClass false tagChars c = true)
    (hnl : nl = [] ∨ nl = ['\n']) :
    (run (.cat (.plus imageGroup true) imageTail)
        ⟨pos, (x :: xs) ++ ':' :: ((y :: ys) ++ nl), cap⟩).head?
      = some ⟨pos + (x :: xs).length + 1 + (y :: ys).length, nl,
          some (pos, pos + (x :: xs).length + 1 + (y :: ys).length)⟩ := by
  obtain ⟨L, hL⟩ := run_imageGroup_image x y xs ys nl pos cap hX hY hnl
  rw [run_cat, run_plus, hL]
  simp only [List.flatMap_cons]
  rw [iterate_of_step_nil _ _ _ _ (run_imageGroup_line_end nl hnl _ _)]
  simp only [List.singleton_append, List.flatMap_cons, imageTail, run_star]
  obtain ⟨L2, hL2⟩ := iterate_lazy_head
    (run (.alt (.cls false [('\n', '\n')]) (.cls false [('\r', '\r')]))) nl.length
    ⟨pos + (x :: xs).length + 1 + (y :: ys).length, nl,
      some (pos, pos + (x :: xs).length + 1 + (y :: ys).length)⟩
  rw [hL2]
  rfl

theorem run_imageLead_line (x : Char) (T : List Char)
    (hx : inClass false nameChars x = true) :
    run imageLead ⟨0, imageLine (x :: T), none⟩
      = [⟨0, imageLine (x :: T), none⟩,
         ⟨1, (imageLine (x :: T)).drop 1, none⟩,
         ⟨2, (imageLine (x :: T)).drop 2, none⟩,
         ⟨3, (imageLine (x :: T)).drop 3, none⟩,
         ⟨4, (imageLine (x :: T)).drop 4, none⟩,
         ⟨5, (imageLine (x :: T)).drop 5, none⟩,
         ⟨6, (imageLine (x :: T)).drop 6, none⟩,
         ⟨7, x :: T, none⟩] := by
  have h1 := name_not_space x hx
  have h2 := name_nonspace x hx
  have c1 : ∀ c ∈ ['i', 'm', 'a', 'g', 'e', ':'],
      inClass false spaceRanges c = false ∧ inClass true spaceRanges c = true := by decide
  have c2 : inClass false spaceRanges ' ' = true ∧ inClass true spaceRanges ' ' = false := by
    decide
  simp only [List.mem_cons, List.mem_singleton, forall_eq_or_imp, forall_eq, List.not_mem_nil,
    false_imp_iff, implies_true, and_true] at c1
  simp [imageLead, imageLine, run_cat, run_star_cls, lazySpan_cons, lazySpan, h1, h2, c1, c2]

theorem run_imageGroup_before (x : Char) (T : List Char) (j : Nat) (hj : j < 7)
    (cap : Option (Nat × Nat)) :
    run imageGroup ⟨j, (imageLine (x :: T)).drop j, cap⟩ = [] := by
  have c1 : ∀ c ∈ ['i', 'm', 'a', 'g', 'e', ':'],
      inClass false imageNameRanges c = true := by decide
  have c2 : inClass false imageNameRanges ' ' = false := by decide
  have c3 : ∀ c ∈ ['i', 'm', 'a', 'g', 'e', ' '],
      inClass false [(':', ':')] c = false := by decide
  have c4 : inClass false [(':', ':')] ':' = true := by decide
  have c5 : inClass false imageTagRanges ' ' = false := by decide
  simp only [List.mem_cons, List.mem_singleton, forall_eq_or_imp, forall_eq, List.not_mem_nil,
    false_imp_iff, implies_true, and_true] at c1 c3
  interval_cases j <;>
    simp [imageGroup, imageLine, run_group, run_cat, run_plus_cls, run_cls_cons, colon,
      greedySpan_cons, c1, c2, c3, c4, c5]

theorem run_image_rest_before (x : Char) (T : List Char) (j : Nat) (hj : j < 7)
    (cap : Option (Nat × Nat)) :
    run (.cat (.plus imageGroup true) imageTail) ⟨j, (imageLine (x :: T)).drop j, cap⟩ = [] := by
  rw [run_cat, run_plus, run_imageGroup_before x T j hj cap]
  rfl

theorem run_imageRegex_line (x y : Char) (xs ys nl : List Char)
    (hX : ∀ c ∈ x :: xs, inClass false nameChars c = true)
    (hY : ∀ c ∈ y :: ys, inClass false tagChars c = true)
    (hnl : nl = [] ∨ nl = ['\n']) :
    (run imageRegex ⟨0, imageLine ((x :: xs) ++ ':' :: ((y :: ys) ++ nl)), none⟩).head?
      = some ⟨7 + (x :: xs).length + 1 + (y :: ys).length, nl,
          some (7, 7 + (x :: xs).length + 1 + (y :: ys).length)⟩ := by
  have hx := hX x (List.mem_cons_self _ _)
  rw [imageRegex, run_cat, List.cons_append, run_imageLead_line x _ hx]
  have h0 := run_image_rest_before x (xs ++ ':' :: ((y :: ys) ++ nl)) 0 (by omega) none
  rw [List.drop_zero] at h0
  simp only [List.flatMap_cons, List.flatMap_nil, List.append_nil, h0,
    run_image_rest_before x _ 1 (by omega), run_image_rest_before x _ 2 (by omega),
    run_image_rest_before x _ 3 (by omega), run_image_rest_before x _ 4 (by omega),
    run_image_rest_before x _ 5 (by omega), run_image_rest_before x _ 6 (by omega),
    List.nil_append]
  exact run_image_tail x y xs ys nl 7 none hX hY hnl

theorem search_line_end (nl : List Char) (hnl : nl = [] ∨ nl = ['\n']) (pos : Nat) :
    search imageRegex pos nl = none := by
  have hG1 := run_imageGroup_line_end [] (Or.inl rfl)
  have hG2 := run_imageGroup_line_end ['\n'] (Or.inr rfl)
  have c1 : inClass false spaceRanges '\n' = true ∧ inClass true spaceRanges '\n' = false := by
    decide
  rcases hnl with rfl | rfl
  · simp [search, imageRegex, imageLead, run_cat, run_star_cls, lazySpan, run_plus, hG1]
  · simp [search, imageRegex, imageLead, run_cat, run_star_cls, lazySpan, run_plus, hG1, hG2,
      c1]

theorem allMatches_line (x y : Char) (xs ys nl : List Char)
    (hX : ∀ c ∈ x :: xs, inClass false nameChars c = true)
    (hY : ∀ c ∈ y :: ys, inClass false tagChars c = true)
    (hnl : nl = [] ∨ nl = ['\n']) (text : List Char)
    (htext : text = imageLine ((x :: xs) ++ ':' :: ((y :: ys) ++ nl))) :
    allMatches imageRegex text (text.length + 1) (text.length + 2) 0 none 0
      = [⟨0, 7 + (x :: xs).length + 1 + (y :: ys).length,
          some (7, 7 + (x :: xs).length + 1 + (y :: ys).length)⟩] := by
  have hsearch : search imageRegex 0 text
      = some ⟨0, 7 + (x :: xs).length + 1 + (y :: ys).length,
          some (7, 7 + (x :: xs).length + 1 + (y :: ys).length)⟩ := by
    have := run_imageRegex_line x y xs ys nl hX hY hnl
    rw [htext]
    rw [imageLine] at this ⊢
    simp only [search, this]
  have hlen : text.length = 7 + (x :: xs).length + 1 + (y :: ys).length + nl.length := by
    rw [htext]; simp [imageLine]; omega
  have hdrop : text.drop (7 + (x :: xs).length + 1 + (y :: ys).length) = nl := by
    rw [htext]
    have : imageLine ((x :: xs) ++ ':' :: ((y :: ys) ++ nl))
        = (imageLine ((x :: xs) ++ ':' :: (y :: ys))) ++ nl := by simp [imageLine]
    rw [this]
    apply List.drop_left'
    simp [imageLine]; omega
  simp only [allMatches]
  rw [if_pos (by constructor <;> omega), List.drop_zero, hsearch]
  simp only
  rw [if_neg (by simp)]
  rw [if_pos (by constructor <;> omega), hdrop, search_line_end nl hnl]

/-- C2: for every non-empty X over letters, digits, `-`, `.`, `/`, `_` and every non-empty Y
over letters, digits, `-`, `.`, the image regular expression applied with
FindAllStringSubmatch to the text `image: X:Y` followed by an optional newline yields exactly
one raw image reference, the text `X:Y` of capture group 1. -/
theorem scrapeImages_image_line (X Y nl : String)
    (hX : X ≠ "") (hXc : ∀ c ∈ X.toList, inClass false nameChars c = true)
    (hY : Y ≠ "") (hYc : ∀ c ∈ Y.toList, inClass false tagChars c = true)
    (hnl : nl = "" ∨ nl = "\n") :
    scrapeImages ("image: " ++ X ++ ":" ++ Y ++ nl) = [X ++ ":" ++ Y] := by
  obtain ⟨xd⟩ := X
  obtain ⟨yd⟩ := Y
  obtain ⟨nd⟩ := nl
  cases xd with
  | nil => exact absurd rfl hX
  | cons x xs =>
    cases yd with
    | nil => exact absurd rfl hY
    | cons y ys =>
      have hnd : nd = [] ∨ nd = ['\n'] := by
        rcases hnl with h | h
        · left; exact congrArg String.data h
        · right; exact congrArg String.data h
      have htext : ("image: " ++ (⟨x :: xs⟩ : String) ++ ":" ++ ⟨y :: ys⟩ ++ ⟨nd⟩).toList
          = imageLine ((x :: xs) ++ ':' :: ((y :: ys) ++ nd)) := by
        show ("image: " ++ (⟨x :: xs⟩ : String) ++ ":" ++ ⟨y :: ys⟩ ++ ⟨nd⟩).data = _
        simp only [String.data_append]
        show ['i', 'm', 'a', 'g', 'e', ':', ' '] ++ (x :: xs) ++ [':'] ++ (y :: ys) ++ nd = _
        simp [imageLine]
      have hall := allMatches_line x y xs ys nd hXc hYc hnd _ htext
      have hlen : ∀ s : String, s.length = s.toList.length := fun _ => rfl
      have hsub : String.mk (((imageLine ((x :: xs) ++ ':' :: ((y :: ys) ++ nd))).drop 7).take
          (7 + (x :: xs).length + 1 + (y :: ys).length - 7))
          = (⟨x :: xs⟩ : String) ++ ":" ++ ⟨y :: ys⟩ := by
        have h1 : 7 + (x :: xs).length + 1 + (y :: ys).length - 7
            = ((x :: xs) ++ ':' :: (y :: ys)).length := by
          simp only [List.length_append, List.length_cons]; omega
        have h2 : (imageLine ((x :: xs) ++ ':' :: ((y :: ys) ++ nd))).drop 7
            = ((x :: xs) ++ ':' :: (y :: ys)) ++ nd := by simp [imageLine]
        rw [h1, h2, List.take_left' rfl]
        apply String.ext
        simp only [String.data_append]
        show _ = (x :: xs) ++ [':'] ++ (y :: ys)
        simp
      unfold scrapeImages findAllSubmatch1
      rw [hlen, hall]
      simp only [List.map_cons, List.map_nil]
      rw [htext, hsub]

/-- C2 instance: the line `image: quay.io/argoproj/argoexec:v3.0.0` yields exactly the raw
reference `quay.io/argoproj/argoexec:v3.0.0`. -/
theorem scrapeImages_argoexec :
    scrapeImages "image: quay.io/argoproj/argoexec:v3.0.0"
      = ["quay.io/argoproj/argoexec:v3.0.0"] :=
  scrapeImages_image_line "quay.io/argoproj/argoexec" "v3.0.0" "" (by decide) (by decide)
    (by decide) (by decide) (Or.inl rfl)

end HelmDigests
